import Mathlib

/-!
Verification development for the gyld statistics / scaling / clustering pipeline.

The source is TypeScript running on JavaScript numbers.  JavaScript numbers are
modelled by `JsNum`: an exact rational payload together with the special values
`Infinity`, `-Infinity` and `NaN`.  Floating-point rounding and negative zero
are not modelled (every arithmetic step of the pipeline that the claims touch
is exact on the inputs considered, and all zero divisors in the source arise as
`x - x`, which is `+0` in JavaScript).  `Math.sqrt` has no exact rational
value, so the statistics record stores the exact radicand (`JsSqrt`); its real
semantics is given by `jsSqrtVal`.
-/

set_option allowUnsafeReducibility true

attribute [semireducible] Rat.add Rat.sub Rat.mul Rat.div Rat.neg Rat.inv

/-- A JavaScript number: an exact rational, or one of the special values. -/
inductive JsNum where
  | num (q : ℚ)
  | inf
  | negInf
  | nan
deriving DecidableEq

/-- JavaScript addition on `JsNum`. -/
def jsAdd : JsNum → JsNum → JsNum
  | .nan, _ => .nan
  | _, .nan => .nan
  | .num a, .num b => .num (a + b)
  | .inf, .negInf => .nan
  | .negInf, .inf => .nan
  | .inf, _ => .inf
  | _, .inf => .inf
  | .negInf, _ => .negInf
  | _, .negInf => .negInf

/-- JavaScript subtraction on `JsNum`. -/
def jsSub : JsNum → JsNum → JsNum
  | .nan, _ => .nan
  | _, .nan => .nan
  | .num a, .num b => .num (a - b)
  | .inf, .inf => .nan
  | .negInf, .negInf => .nan
  | .inf, _ => .inf
  | .negInf, _ => .negInf
  | .num _, .inf => .negInf
  | .num _, .negInf => .inf

/-- JavaScript multiplication on `JsNum`. -/
def jsMul : JsNum → JsNum → JsNum
  | .nan, _ => .nan
  | _, .nan => .nan
  | .num a, .num b => .num (a * b)
  | .inf, .inf => .inf
  | .inf, .negInf => .negInf
  | .negInf, .inf => .negInf
  | .negInf, .negInf => .inf
  | .inf, .num b => if b = 0 then .nan else if 0 < b then .inf else .negInf
  | .num a, .inf => if a = 0 then .nan else if 0 < a then .inf else .negInf
  | .negInf, .num b => if b = 0 then .nan else if 0 < b then .negInf else .inf
  | .num a, .negInf => if a = 0 then .nan else if 0 < a then .negInf else .inf

/-- JavaScript division on `JsNum`.  A zero divisor is treated as `+0`: in the
source every zero divisor arises as `x - x` of finite values, which is `+0`. -/
def jsDiv : JsNum → JsNum → JsNum
  | .nan, _ => .nan
  | _, .nan => .nan
  | .num a, .num b =>
      if b = 0 then (if a = 0 then .nan else if 0 < a then .inf else .negInf)
      else .num (a / b)
  | .num _, .inf => .num 0
  | .num _, .negInf => .num 0
  | .inf, .num b => if 0 ≤ b then .inf else .negInf
  | .negInf, .num b => if 0 ≤ b then .negInf else .inf
  | .inf, .inf => .nan
  | .inf, .negInf => .nan
  | .negInf, .inf => .nan
  | .negInf, .negInf => .nan

/-- JavaScript `Math.min` of two numbers. -/
def jsMin : JsNum → JsNum → JsNum
  | .nan, _ => .nan
  | _, .nan => .nan
  | .num a, .num b => .num (min a b)
  | .negInf, _ => .negInf
  | _, .negInf => .negInf
  | .inf, b => b
  | a, .inf => a

/-- JavaScript `Math.max` of two numbers. -/
def jsMax : JsNum → JsNum → JsNum
  | .nan, _ => .nan
  | _, .nan => .nan
  | .num a, .num b => .num (max a b)
  | .inf, _ => .inf
  | _, .inf => .inf
  | .negInf, b => b
  | a, .negInf => a

/-- JavaScript `isNaN` on a number. -/
def jsIsNaN (x : JsNum) : Bool := x = .nan

/-- JavaScript `Number.isFinite`. -/
def jsIsFinite : JsNum → Bool
  | .num _ => true
  | _ => false

/-- JavaScript `<` comparison (false whenever either side is `NaN`). -/
def jsLt : JsNum → JsNum → Bool
  | .nan, _ => false
  | _, .nan => false
  | .num a, .num b => a < b
  | .negInf, .negInf => false
  | .negInf, _ => true
  | _, .negInf => false
  | .inf, _ => false
  | .num _, .inf => true

/-- Key order used by `Array.sort((a, b) => a - b)` on NaN-free values. -/
def jsLe : JsNum → JsNum → Bool
  | .nan, _ => true
  | _, .nan => true
  | .num a, .num b => a ≤ b
  | .negInf, _ => true
  | _, .negInf => false
  | _, .inf => true
  | .inf, .num _ => false

/-- Insert into an ascending list, used to model the sort in the source. -/
def insertAsc (x : JsNum) : List JsNum → List JsNum
  | [] => [x]
  | y :: ys => if jsLe x y then x :: y :: ys else y :: insertAsc x ys

/-- Ascending sort modelling `Array.sort((a, b) => a - b)` on NaN-free values
(values equal as rationals are indistinguishable, so stability is moot). -/
def sortAsc (l : List JsNum) : List JsNum := l.foldr insertAsc []

/-- The exact result of `Math.sqrt`: the radicand is recorded exactly because
a square root has no exact rational representation. -/
structure JsSqrt where
  radicand : JsNum
deriving DecidableEq

/-- A JavaScript number with a real (rather than rational) payload, used only
to give `Math.sqrt` its real-number semantics. -/
inductive JsR where
  | num (x : ℝ)
  | inf
  | negInf
  | nan

/-- Real semantics of `Math.sqrt` on the recorded radicand
(JavaScript: `sqrt` of a negative number, `-Infinity` or `NaN` is `NaN`,
and `sqrt(Infinity)` is `Infinity`). -/
noncomputable def jsSqrtVal : JsSqrt → JsR
  | ⟨.num q⟩ => if q < 0 then .nan else .num (Real.sqrt q)
  | ⟨.inf⟩ => .inf
  | ⟨.negInf⟩ => .nan
  | ⟨.nan⟩ => .nan

/-!
StatsEngine — embedding of src/unnamed/part_000 (stats-helpers).
Rows of the tabular dataset are untyped JavaScript values, modelled by
`CellValue`; an object row is an association list with unique keys, and a
missing key reads as `undefined`.
-/

/-- An untyped JavaScript value as it appears in a dataset row. -/
inductive CellValue where
  | vnum (x : JsNum)
  | vstr (s : String)
  | vbool (b : Bool)
  | vnull
  | vundefined
deriving DecidableEq

/-- The filter `typeof v === 'number' && !isNaN(v)` of the source, keeping the
numeric payload (note: `Infinity` and `-Infinity` pass this filter). -/
def numericCellValues (values : List CellValue) : List JsNum :=
  values.filterMap fun v =>
    match v with
    | .vnum x => if x = .nan then none else some x
    | _ => none

/-- Error taxonomy of the statistics helpers; each constructor corresponds to
one `throw new Error(...)` site of the source, keeping the named column or
dimension of the message. -/
inductive StatsError where
  | emptyInput
  | noValidValues
  | noNumericValues (column : String)
  | noValues (column : String)
  | emptyDataset
  | noFeatureValues (featureIndex : ℕ)
deriving DecidableEq

/-- Result record of `calculateNumericStats`. -/
structure NumericStats where
  count : ℕ
  min : JsNum
  max : JsNum
  range : JsNum
  mean : JsNum
  median : JsNum
  mode : Option JsNum
  standardDeviation : JsSqrt
  variance : JsNum
  sum : JsNum
deriving DecidableEq

/-- One insert/increment of the frequency `Map` of the source: increment the
entry when the key is present, otherwise append a fresh entry (JavaScript
`Map` preserves insertion order). -/
def bumpFreq {β : Type} [DecidableEq β] : List (β × ℕ) → β → List (β × ℕ)
  | [], v => [(v, 1)]
  | e :: m, v => if e.1 = v then (e.1, e.2 + 1) :: m else e :: bumpFreq m v

/-- The frequency `Map` of the source, in key insertion order. -/
def buildFrequencyMap {β : Type} [DecidableEq β] (values : List β) : List (β × ℕ) :=
  values.foldl bumpFreq []

/-- The numeric-mode fold of the source: `mode` starts as `null`, and an entry
replaces it only when its frequency strictly exceeds the running maximum. -/
def numericModeFold (entries : List (JsNum × ℕ)) : Option JsNum × ℕ :=
  entries.foldl (fun acc e => if e.2 > acc.2 then (some e.1, e.2) else acc) (none, 0)

/-- The statistics computed by the body of `calculateNumericStats` from the
already-filtered numeric values. -/
def statsOf (numericValues : List JsNum) : NumericStats :=
  let count := numericValues.length
  let minV := numericValues.foldl jsMin .inf
  let maxV := numericValues.foldl jsMax .negInf
  let sum := numericValues.foldl jsAdd (.num 0)
  let mean := jsDiv sum (.num count)
  let sorted := sortAsc numericValues
  let median :=
    if count % 2 = 0 then
      jsDiv (jsAdd (sorted.getD (count / 2 - 1) .nan) (sorted.getD (count / 2) .nan)) (.num 2)
    else
      sorted.getD (count / 2) .nan
  let mode := (numericModeFold (buildFrequencyMap numericValues)).1
  let variance :=
    jsDiv (numericValues.foldl (fun acc val => jsAdd acc (jsMul (jsSub val mean) (jsSub val mean)))
      (.num 0)) (.num count)
  { count := count
    min := minV
    max := maxV
    range := jsSub maxV minV
    mean := mean
    median := median
    mode := mode
    standardDeviation := ⟨variance⟩
    variance := variance
    sum := sum }

/-- `calculateNumericStats`: rejects an empty input, filters to numeric
non-NaN entries, rejects an empty filtered sequence, then computes the
statistics from the filtered values. -/
def calculateNumericStats (values : List CellValue) : Except StatsError NumericStats :=
  if values = [] then .error .emptyInput
  else
    let numericValues := numericCellValues values
    if numericValues = [] then .error .noValidValues
    else .ok (statsOf numericValues)

/-- A dataset row: a JavaScript object, i.e. an association list of fields. -/
abbrev Row := List (String × CellValue)

/-- Reading `row[columnName]`: a missing field is `undefined`. -/
def rowGet (row : Row) (k : String) : CellValue :=
  match row.find? (fun e => e.1 = k) with
  | some e => e.2
  | none => .vundefined

/-- The column extraction `data.map(row => row[columnName])`. -/
def columnValues (data : List Row) (columnName : String) : List CellValue :=
  data.map (fun row => rowGet row columnName)

/-- `analyzeNumericColumn`: extract the column, keep numeric non-NaN values,
fail naming the column when nothing remains, else delegate. -/
def analyzeNumericColumn (data : List Row) (columnName : String) :
    Except StatsError NumericStats :=
  let values := numericCellValues (columnValues data columnName)
  if values = [] then .error (.noNumericValues columnName)
  else calculateNumericStats (values.map .vnum)

/-- The filter `val !== null && val !== undefined` of the source. -/
def definedCellValues (values : List CellValue) : List CellValue :=
  values.filter fun v => decide (v ≠ .vnull ∧ v ≠ .vundefined)

/-- `countUniqueValues`: the size of `new Set(values)`. -/
def countUniqueValues {β : Type} [DecidableEq β] (values : List β) : ℕ :=
  values.dedup.length

/-- Result of `findMode`. -/
structure ModeResult (β : Type) where
  mode : List β
  count : ℕ
deriving DecidableEq

/-- The fold of `findMode` over the frequency entries: a strictly larger
frequency resets the modes, an equal frequency is pushed. -/
def findModeFold {β : Type} (entries : List (β × ℕ)) : ℕ × List β :=
  entries.foldl
    (fun acc e =>
      if e.2 > acc.1 then (e.2, [e.1])
      else if e.2 = acc.1 then (acc.1, acc.2 ++ [e.1])
      else acc)
    (0, [])

/-- `findMode`: all values tied at the maximum frequency, plus that
frequency. -/
def findMode {β : Type} [DecidableEq β] (values : List β) : ModeResult β :=
  let r := findModeFold (buildFrequencyMap values)
  { mode := r.2, count := r.1 }

/-- One entry of the frequency table. -/
structure FrequencyEntry (β : Type) where
  value : β
  count : ℕ
  percentage : ℚ
deriving DecidableEq

/-- Stable descending insertion by count: a new entry goes after every
already-placed entry of greater or equal count, modelling the stable
`sort((a, b) => b.count - a.count)` of the source (encounter order is kept
among count-tied entries). -/
def insertByCountDesc {β : Type} :
    List (FrequencyEntry β) → FrequencyEntry β → List (FrequencyEntry β)
  | [], x => [x]
  | y :: ys, x => if y.count ≥ x.count then y :: insertByCountDesc ys x else x :: y :: ys

/-- `createFrequencyTable`: one entry per distinct value with count and
percentage of total, sorted by descending count (stable on ties). -/
def createFrequencyTable {β : Type} [DecidableEq β] (values : List β) :
    List (FrequencyEntry β) :=
  let entries := (buildFrequencyMap values).map fun e =>
    ({ value := e.1, count := e.2,
       percentage := ((e.2 : ℚ) / (values.length : ℚ)) * 100 } : FrequencyEntry β)
  entries.foldl insertByCountDesc []

/-- Result record of `analyzeCategoricalColumn`. -/
structure CategoricalAnalysis where
  totalCount : ℕ
  uniqueCount : ℕ
  mode : List CellValue
  modeCount : ℕ
  frequencyTable : List (FrequencyEntry CellValue)
deriving DecidableEq

/-- The defined (non-null, non-undefined) values of a column. -/
def categoricalValues (data : List Row) (columnName : String) : List CellValue :=
  definedCellValues (columnValues data columnName)

/-- `analyzeCategoricalColumn`: drops null/undefined entries, fails naming the
column when nothing remains, else reports counts, modes and the table. -/
def analyzeCategoricalColumn (data : List Row) (columnName : String) :
    Except StatsError CategoricalAnalysis :=
  let values := categoricalValues data columnName
  if values = [] then .error (.noValues columnName)
  else
    .ok { totalCount := values.length
          uniqueCount := countUniqueValues values
          mode := (findMode values).mode
          modeCount := (findMode values).count
          frequencyTable := createFrequencyTable values }

/-- Column classification. -/
inductive ColumnType where
  | numeric
  | categorical
deriving DecidableEq

/-- `getColumnType`: an empty column is categorical; otherwise numeric iff at
least 80 percent of the defined values are numeric non-NaN. -/
def getColumnType (data : List Row) (columnName : String) : ColumnType :=
  let values := definedCellValues (columnValues data columnName)
  if values = [] then .categorical
  else
    if ((numericCellValues values).length : ℚ) / (values.length : ℚ) * 100 ≥ 80 then .numeric
    else .categorical

/-- Result of `analyzeDataset`.  `console.warn` is modelled by recording the
name of the failing column in `warnings`. -/
structure DatasetAnalysis where
  numericColumns : List (String × NumericStats)
  categoricalColumns : List (String × CategoricalAnalysis)
  columnTypes : List (String × ColumnType)
  warnings : List String
deriving DecidableEq

/-- The columns of the dataset: the keys of the first record. -/
def columnsOf (data : List Row) : List String :=
  (data.headD []).map Prod.fst

/-- The per-column analysis dispatched on the column type, as run inside the
`try` of `analyzeDataset`. -/
def colAnalysis (data : List Row) (column : String) :
    Except StatsError (NumericStats ⊕ CategoricalAnalysis) :=
  match getColumnType data column with
  | .numeric => (analyzeNumericColumn data column).map .inl
  | .categorical => (analyzeCategoricalColumn data column).map .inr

/-- One iteration of the `columns.forEach` loop of `analyzeDataset`: record
the column type, then either record the analysis or catch the failure and log
a warning. -/
def analyzeDatasetStep (data : List Row) (acc : DatasetAnalysis) (column : String) :
    DatasetAnalysis :=
  let acc1 := { acc with columnTypes := acc.columnTypes ++ [(column, getColumnType data column)] }
  match colAnalysis data column with
  | .ok (.inl s) => { acc1 with numericColumns := acc1.numericColumns ++ [(column, s)] }
  | .ok (.inr a) => { acc1 with categoricalColumns := acc1.categoricalColumns ++ [(column, a)] }
  | .error _ => { acc1 with warnings := acc1.warnings ++ [column] }

/-- `analyzeDataset`: rejects an empty dataset, then analyzes every column of
the first record, dropping (with a warning) any column whose analysis fails. -/
def analyzeDataset (data : List Row) : Except StatsError DatasetAnalysis :=
  if data = [] then .error .emptyDataset
  else .ok ((columnsOf data).foldl (analyzeDatasetStep data) ⟨[], [], [], []⟩)

/-!
FeatureScaler — embedding of the scaling functions of src/unnamed/part_000.
-/

/-- Per-dimension statistics used for scaling. -/
structure FeatureStats where
  min : JsNum
  max : JsNum
  mean : JsNum
  stddev : JsNum
deriving DecidableEq

/-- A record of the dataset fed to scaling and clustering: an identity plus a
numeric feature vector. -/
structure DataItem where
  name : String
  value : List JsNum
deriving DecidableEq

instance : Inhabited DataItem := ⟨⟨"", []⟩⟩

/-- `scaleFeature`: min-max normalize against the dimension's min/max, then
standardize against the dimension's mean and standard deviation. -/
def scaleFeature (value : JsNum) (featStats : FeatureStats) : JsNum :=
  let normalized := jsDiv (jsSub value featStats.min) (jsSub featStats.max featStats.min)
  jsDiv (jsSub normalized featStats.mean) featStats.stddev

/-- The error thrown by `scaleDataset` for a dimension without statistics,
keeping the named feature index of the message. -/
inductive ScaleError where
  | missingStats (featureIndex : ℕ)
deriving DecidableEq

/-- The `item.value.map((val, featureIndex) => ...)` of `scaleDataset`:
feature values are scaled in index order, and the first index with no entry in
the statistics mapping aborts with `missingStats`. -/
def scaleValues (featureStats : ℕ → Option FeatureStats) :
    List JsNum → ℕ → Except ScaleError (List JsNum)
  | [], _ => .ok []
  | v :: vs, i =>
    match featureStats i with
    | none => .error (.missingStats i)
    | some stats =>
      match scaleValues featureStats vs (i + 1) with
      | .ok ws => .ok (scaleFeature v stats :: ws)
      | .error e => .error e

/-- `scaleDataset`: scale every value of every record, keeping the name. -/
def scaleDataset (data : List DataItem) (featureStats : ℕ → Option FeatureStats) :
    Except ScaleError (List DataItem) :=
  match data with
  | [] => .ok []
  | item :: rest =>
    match scaleValues featureStats item.value 0 with
    | .error e => .error e
    | .ok ws =>
      match scaleDataset rest featureStats with
      | .error e => .error e
      | .ok out => .ok (⟨item.name, ws⟩ :: out)

/-!
CLI parsing — embedding of `parseArgs` of src/src/index.ts, together with the
`args.teams || 3` defaulting used by `main` for `minClusters`.  The JavaScript
`Number(string)` conversion is modelled for trimmed decimal literals and the
infinities; the exotic forms (exponents, hex) never reach this program's flag
values and convert to `NaN` here.
-/

/-- The numeric value of one decimal digit. -/
def charDigit? (c : Char) : Option ℕ :=
  if c.isDigit then some (c.toNat - 48) else none

/-- The value of a digit string, `none` when a non-digit occurs. -/
def digitsVal? : List Char → Option ℕ
  | [] => some 0
  | c :: cs =>
    match charDigit? c, digitsVal? cs with
    | some d, some r => some (d * 10 ^ cs.length + r)
    | _, _ => none

/-- Parse an unsigned decimal literal `digits[.digits]` (either part may be
empty but not both). -/
def parseUnsigned? (cs : List Char) : Option ℚ :=
  let intPart := cs.takeWhile (fun c => decide (c ≠ '.'))
  let rest := cs.dropWhile (fun c => decide (c ≠ '.'))
  match rest with
  | [] =>
    match intPart with
    | [] => none
    | _ =>
      match digitsVal? intPart with
      | some n => some (n : ℚ)
      | none => none
  | _ :: frac =>
    if intPart = [] ∧ frac = [] then none
    else
      match frac.dropWhile (fun c => decide (c ≠ '.')) with
      | _ :: _ => none
      | [] =>
        match digitsVal? intPart, digitsVal? frac with
        | some n, some f => some ((n : ℚ) + (f : ℚ) / (10 : ℚ) ^ frac.length)
        | _, _ => none

/-- Whitespace as stripped by the JavaScript string-to-number conversion. -/
def isWsChar (c : Char) : Bool :=
  c = ' ' ∨ c = '\t' ∨ c = '\n' ∨ c = '\r'

/-- Strip leading and trailing whitespace from a character list (the built-in
`String` functions are modelled on character lists, where they compute). -/
def trimChars (cs : List Char) : List Char :=
  ((cs.dropWhile isWsChar).reverse.dropWhile isWsChar).reverse

/-- JavaScript `Number(string)` on the forms relevant here: the empty (or
all-whitespace) string is `0`, the infinities are recognised, and otherwise an
optionally signed decimal literal is parsed; anything else is `NaN`. -/
def jsNumber (s : String) : JsNum :=
  let t := trimChars s.toList
  if t = [] then .num 0
  else if t = "Infinity".toList ∨ t = "+Infinity".toList then .inf
  else if t = "-Infinity".toList then .negInf
  else
    match t with
    | [] => .num 0
    | c :: r =>
      if c = '-' then
        match parseUnsigned? r with
        | some q => .num (-q)
        | none => .nan
      else if c = '+' then
        match parseUnsigned? r with
        | some q => .num q
        | none => .nan
      else
        match parseUnsigned? (c :: r) with
        | some q => .num q
        | none => .nan

/-- The parsed command-line flags. -/
structure CliArgs where
  teams : Option JsNum
  seed : Option JsNum
deriving DecidableEq

/-- The errors thrown by `parseArgs`, one per message. -/
inductive CliError where
  | teamsRequiresNumber
  | teamsMustBeNonneg
  | seedRequiresNumber
  | seedMustBeNumber
deriving DecidableEq

/-- The test `value.startsWith("--")` of the source, on the character list. -/
def startsWithDashDash (s : String) : Bool :=
  match s.toList with
  | c1 :: c2 :: _ => c1 = '-' && c2 = '-'
  | _ => false

/-- The argument loop of `parseArgs`: `--teams` and `--seed` each consume the
following token; a missing or flag-like value, a non-finite number, or (for
teams) a negative number is rejected. -/
def parseArgsLoop : List String → Option JsNum → Option JsNum → Except CliError CliArgs
  | [], teams, seed => .ok ⟨teams, seed⟩
  | arg :: rest, teams, seed =>
    if arg = "--teams" then
      match rest with
      | [] => .error .teamsRequiresNumber
      | v :: rest2 =>
        if startsWithDashDash v then .error .teamsRequiresNumber
        else
          if ¬ jsIsFinite (jsNumber v) ∨ jsLt (jsNumber v) (.num 0) then
            .error .teamsMustBeNonneg
          else parseArgsLoop rest2 (some (jsNumber v)) seed
    else if arg = "--seed" then
      match rest with
      | [] => .error .seedRequiresNumber
      | v :: rest2 =>
        if startsWithDashDash v then .error .seedRequiresNumber
        else
          if ¬ jsIsFinite (jsNumber v) then .error .seedMustBeNumber
          else parseArgsLoop rest2 teams (some (jsNumber v))
    else parseArgsLoop rest teams seed

/-- `parseArgs` over the whole argument vector. -/
def parseArgs (argv : List String) : Except CliError CliArgs :=
  parseArgsLoop argv none none

/-- JavaScript truthiness of a number: `0` and `NaN` are falsy. -/
def jsTruthy : JsNum → Bool
  | .num q => q ≠ 0
  | .inf => true
  | .negInf => true
  | .nan => false

/-- The `minClusters: args.teams || 3` of `main`: a missing teams flag, and
also a falsy parsed value (`0`, `NaN`), fall back to `3`. -/
def minClustersArg (teams : Option JsNum) : JsNum :=
  match teams with
  | none => .num 3
  | some t => if jsTruthy t then t else .num 3

/-!
ClusteringEngine.  Modelled from the spec: the clustering algorithm itself
lives in the external hierarchical-clustering package and is not part of the
repository sources; only its call site (`main` of src/src/index.ts) is.
Following spec section 4.3 it is an agglomerative single-linkage clustering:
start from singleton clusters of the record indices, repeatedly merge the pair
of clusters at minimum single-linkage distance (ties broken by lowest index
pair), record each partition level and its merge distance, and stop at the
caller's target cluster count (or at one cluster when the target is
unreachable).  The point distance is a parameter, covering the Euclidean
distance over scaled vectors used by `main`.
-/

/-- The minimum of `x` and the elements of a list. -/
def minList {α : Type} [LinearOrder α] : α → List α → α
  | x, [] => x
  | x, y :: ys => minList (min x y) ys

/-- All pairs of members of two clusters. -/
def allPairs : List ℕ → List ℕ → List (ℕ × ℕ)
  | [], _ => []
  | a :: as, B => B.map (fun b => (a, b)) ++ allPairs as B

/-- Modelled from the spec: single-linkage distance between two clusters, the
minimum point distance over all member pairs (junk on an empty cluster, which
never occurs). -/
def clusterDist {α : Type} [LinearOrder α] (d : ℕ → ℕ → α) (A B : List ℕ) : α :=
  match (allPairs A B).map (fun p => d p.1 p.2) with
  | [] => d 0 0
  | x :: xs => minList x xs

/-- All pairwise cluster distances of a partition, one per unordered pair of
distinct positions. -/
def pairDists {α : Type} [LinearOrder α] (d : ℕ → ℕ → α) : List (List ℕ) → List α
  | [] => []
  | c :: cs => cs.map (fun c2 => clusterDist d c c2) ++ pairDists d cs

/-- All index pairs `(i, j)` with `i < j < n`, in lexicographic order. -/
def pairsBelow : ℕ → List (ℕ × ℕ)
  | 0 => []
  | n + 1 => pairsBelow n ++ (List.range n).map (fun i => (i, n))

/-- First element of the list minimizing `f` (ties keep the earlier element). -/
def argminBy {α β : Type} [LinearOrder α] (f : β → α) : List β → Option β
  | [] => none
  | b :: bs =>
    match argminBy f bs with
    | none => some b
    | some c => if f b ≤ f c then some b else some c

/-- Modelled from the spec: merge the clusters at positions `i < j`, replacing
position `i` by the union and removing position `j`. -/
def mergeAt (cs : List (List ℕ)) (i j : ℕ) : List (List ℕ) :=
  cs.take i ++ (cs.getD i [] ++ cs.getD j []) ::
    ((cs.drop (i + 1)).take (j - i - 1) ++ cs.drop (j + 1))

/-- Modelled from the spec: one merge step — pick the pair of distinct
clusters at minimum single-linkage distance (lowest index pair on ties), merge
them, and report the new partition with the merge distance.  `none` when
fewer than two clusters remain. -/
def mergeOnce {α : Type} [LinearOrder α] (d : ℕ → ℕ → α) (cs : List (List ℕ)) :
    Option (List (List ℕ) × α) :=
  match argminBy (fun p => clusterDist d (cs.getD p.1 []) (cs.getD p.2 []))
      (pairsBelow cs.length) with
  | none => none
  | some (i, j) => some (mergeAt cs i j, clusterDist d (cs.getD i []) (cs.getD j []))

/-- Modelled from the spec: the merge loop, recording each level and its merge
distance, stopping at the target cluster count or at one cluster. -/
def clusterLoop {α : Type} [LinearOrder α] (d : ℕ → ℕ → α) (target : ℕ) :
    ℕ → List (List ℕ) → List (List (List ℕ) × α)
  | 0, _ => []
  | fuel + 1, cs =>
    if cs.length ≤ target ∨ cs.length ≤ 1 then []
    else
      match mergeOnce d cs with
      | none => []
      | some (cs2, dist) => (cs2, dist) :: clusterLoop d target fuel cs2

/-- Modelled from the spec: the dendrogram levels of the clustering stage over
`n` records, from the all-singleton partition down to the target count, paired
with the list of successive merge distances. -/
def clusterLevels {α : Type} [LinearOrder α] (d : ℕ → ℕ → α) (n target : ℕ) :
    List (List (List ℕ)) × List α :=
  let init := (List.range n).map (fun i => [i])
  let steps := clusterLoop d target init.length init
  (init :: steps.map Prod.fst, steps.map Prod.snd)

/-!
Helper definitions used by the theorems below.
-/

deriving instance DecidableEq for Except

/-- The filter described by the spec for `computeNumericStats`: keep only the
finite numeric entries.  Stated from the spec's words, for comparison with the
source's filter `numericCellValues`, which keeps the infinities. -/
def finiteCellValues (values : List CellValue) : List JsNum :=
  values.filterMap fun v =>
    match v with
    | .vnum x => if jsIsFinite x then some x else none
    | _ => none

/-- Lookup in a frequency map (0 for an absent key). -/
def freqOf {β : Type} [DecidableEq β] : List (β × ℕ) → β → ℕ
  | [], _ => 0
  | e :: m, v => if e.1 = v then e.2 else freqOf m v

/-- The numeric-column entries contributed by a list of columns. -/
def numContrib (data : List Row) (cols : List String) : List (String × NumericStats) :=
  cols.filterMap fun c =>
    match colAnalysis data c with
    | .ok (.inl s) => some (c, s)
    | _ => none

/-- The categorical-column entries contributed by a list of columns. -/
def catContrib (data : List Row) (cols : List String) : List (String × CategoricalAnalysis) :=
  cols.filterMap fun c =>
    match colAnalysis data c with
    | .ok (.inr a) => some (c, a)
    | _ => none

/-- The warned (failing) columns among a list of columns. -/
def warnContrib (data : List Row) (cols : List String) : List String :=
  cols.filter fun c =>
    match colAnalysis data c with
    | .error _ => true
    | _ => false

/-- A well-formed dendrogram level over `n` records: the member lists
partition the index set (their concatenation is a permutation of all indices)
and every cluster is non-empty. -/
def GoodPartition (n : ℕ) (cs : List (List ℕ)) : Prop :=
  cs.flatten.Perm (List.range n) ∧ ∀ c ∈ cs, c ≠ []

/-!
Theorems.
-/

/-- C1: for every raw value and every FeatureStats record, `scaleFeature`
returns `((raw - stats.min) / (stats.max - stats.min) - stats.mean) /
stats.stddev` — the min-max normalized value standardized by the mean and
standard deviation of the original, unnormalized values (the `mean` and
`stddev` fields of the record), not of the normalized ones. -/
theorem scaleFeature_formula (value : JsNum) (featStats : FeatureStats) :
    scaleFeature value featStats =
      jsDiv (jsSub (jsDiv (jsSub value featStats.min) (jsSub featStats.max featStats.min))
        featStats.mean) featStats.stddev := rfl

/-- C2 counterexample: with `max = min` (a degenerate dimension), the source
raises no error at all — `scaleFeature` is total and silently returns
`Infinity` (or `NaN` when the raw value equals the shared bound). -/
theorem scaleFeature_degenerate_counterexample :
    scaleFeature (.num 6) ⟨.num 5, .num 5, .num 0, .num 1⟩ = .inf ∧
    scaleFeature (.num 5) ⟨.num 5, .num 5, .num 0, .num 1⟩ = .nan := by decide

/-- C2 amended: for finite inputs with `max = min` or `stddev = 0`,
`scaleFeature` silently produces a non-finite value (`Infinity`, `-Infinity`
or `NaN`); no degenerate-feature error exists anywhere in the source. -/
theorem scaleFeature_degenerate_nonfinite (v mn mx me sd : ℚ)
    (h : mx = mn ∨ sd = 0) :
    jsIsFinite (scaleFeature (.num v) ⟨.num mn, .num mx, .num me, .num sd⟩) = false := by
  have hdiv : ∀ a : ℚ, jsDiv (.num a) (.num 0) = .nan ∨ jsDiv (.num a) (.num 0) = .inf ∨
      jsDiv (.num a) (.num 0) = .negInf := by
    intro a
    by_cases h0 : a = 0
    · left; simp [jsDiv, h0]
    · by_cases hpos : 0 < a
      · right; left; simp [jsDiv, h0, hpos]
      · right; right; simp [jsDiv, h0, hpos]
  have hstep : ∀ (x : JsNum) (me2 sd2 : ℚ), (x = .nan ∨ x = .inf ∨ x = .negInf) →
      jsIsFinite (jsDiv (jsSub x (.num me2)) (.num sd2)) = false := by
    intro x me2 sd2 hx
    rcases hx with rfl | rfl | rfl
    · simp [jsSub, jsDiv, jsIsFinite]
    · simp only [jsSub, jsDiv]
      split_ifs <;> simp [jsIsFinite]
    · simp only [jsSub, jsDiv]
      split_ifs <;> simp [jsIsFinite]
  rcases h with h | h
  · subst h
    show jsIsFinite (jsDiv (jsSub (jsDiv (jsSub (.num v) (.num mx)) (jsSub (.num mx) (.num mx)))
      (.num me)) (.num sd)) = false
    have h2 : jsSub (JsNum.num mx) (JsNum.num mx) = .num 0 := by simp [jsSub]
    rw [h2, show jsSub (JsNum.num v) (JsNum.num mx) = .num (v - mx) from rfl]
    exact hstep _ me sd (hdiv (v - mx))
  · subst h
    by_cases hd : mx - mn = 0
    · show jsIsFinite (jsDiv (jsSub (jsDiv (jsSub (.num v) (.num mn)) (jsSub (.num mx) (.num mn)))
        (.num me)) (.num 0)) = false
      have h2 : jsSub (JsNum.num mx) (JsNum.num mn) = .num 0 := by simp [jsSub, hd]
      rw [h2, show jsSub (JsNum.num v) (JsNum.num mn) = .num (v - mn) from rfl]
      exact hstep _ me 0 (hdiv (v - mn))
    · show jsIsFinite (jsDiv (jsSub (jsDiv (jsSub (.num v) (.num mn)) (jsSub (.num mx) (.num mn)))
        (.num me)) (.num 0)) = false
      have h2 : jsDiv (jsSub (JsNum.num v) (JsNum.num mn)) (jsSub (JsNum.num mx) (JsNum.num mn)) =
          .num ((v - mn) / (mx - mn)) := by simp [jsSub, jsDiv, hd]
      rw [h2, show jsSub (JsNum.num ((v - mn) / (mx - mn))) (JsNum.num me) =
        .num ((v - mn) / (mx - mn) - me) from rfl]
      rcases hdiv ((v - mn) / (mx - mn) - me) with h4 | h4 | h4 <;> simp [h4, jsIsFinite]

/-- C2 amended, witness at a concrete degenerate dimension. -/
theorem scaleFeature_degenerate_nonfinite_witness :
    ((5 : ℚ) = 5 ∨ (1 : ℚ) = 0) ∧
      jsIsFinite (scaleFeature (.num 6) ⟨.num 5, .num 5, .num 0, .num 1⟩) = false :=
  ⟨Or.inl rfl, scaleFeature_degenerate_nonfinite 6 5 5 0 1 (Or.inl rfl)⟩

/-- C3 counterexample: the source's filter keeps `Infinity` (it only removes
`NaN` and non-numbers), so the statistics do not depend only on the finite
numeric values: `[1, Infinity]` and `[1]` have the same finite numeric values
but different counts, and the returned maximum is the non-finite `Infinity`. -/
theorem calculateNumericStats_counterexample :
    finiteCellValues [.vnum (.num 1), .vnum .inf] = finiteCellValues [.vnum (.num 1)] ∧
    (calculateNumericStats [.vnum (.num 1), .vnum .inf]).map (fun s => s.count) = .ok 2 ∧
    (calculateNumericStats [.vnum (.num 1)]).map (fun s => s.count) = .ok 1 ∧
    (calculateNumericStats [.vnum (.num 1), .vnum .inf]).map (fun s => s.max) = .ok .inf := by
  decide

/-- C3 amended: `calculateNumericStats` excludes `NaN` and non-numeric
entries (but keeps the infinities) before computing, so the result depends
only on the numeric non-NaN entries of the input; it fails with the
empty-input error on an empty input and with the no-valid-values error when
the filtering leaves nothing. -/
theorem calculateNumericStats_filter_spec :
    calculateNumericStats [] = .error .emptyInput ∧
    (∀ values : List CellValue, values ≠ [] → numericCellValues values = [] →
      calculateNumericStats values = .error .noValidValues) ∧
    (∀ v1 v2 : List CellValue, v1 ≠ [] → v2 ≠ [] →
      numericCellValues v1 = numericCellValues v2 →
      calculateNumericStats v1 = calculateNumericStats v2) := by
  refine ⟨rfl, ?_, ?_⟩
  · intro values hne hf
    simp [calculateNumericStats, hne, hf]
  · intro v1 v2 h1 h2 hf
    simp only [calculateNumericStats, h1, h2, if_false, hf]

/-- C3 amended, witness at concrete inputs. -/
theorem calculateNumericStats_filter_spec_witness :
    calculateNumericStats [] = .error .emptyInput ∧
    calculateNumericStats [.vstr "a"] = .error .noValidValues ∧
    calculateNumericStats [.vnum (.num 1), .vstr "a"] = calculateNumericStats [.vnum (.num 1)] :=
  ⟨calculateNumericStats_filter_spec.1,
   calculateNumericStats_filter_spec.2.1 [.vstr "a"] (by decide) (by decide),
   calculateNumericStats_filter_spec.2.2 [.vnum (.num 1), .vstr "a"] [.vnum (.num 1)]
     (by decide) (by decide) (by decide)⟩

/-- C5: `calculateNumericStats` on `[1, 2, 2, 3, 4]` returns count 5, min 1,
max 4, range 3, sum 12, mean 2.4, median 2, mode 2, population variance 1.04,
and a standard deviation of `sqrt(1.04)`, which lies strictly between 1.0198
and 1.0199. -/
theorem calculateNumericStats_example :
    calculateNumericStats
        [.vnum (.num 1), .vnum (.num 2), .vnum (.num 2), .vnum (.num 3), .vnum (.num 4)] =
      .ok { count := 5, min := .num 1, max := .num 4, range := .num 3, mean := .num (12 / 5),
            median := .num 2, mode := some (.num 2), standardDeviation := ⟨.num (26 / 25)⟩,
            variance := .num (26 / 25), sum := .num 12 } ∧
    jsSqrtVal ⟨.num (26 / 25)⟩ = .num (Real.sqrt (26 / 25)) ∧
    (1.0198 : ℝ) < Real.sqrt (26 / 25) ∧ Real.sqrt (26 / 25) < (1.0199 : ℝ) := by
  refine ⟨by decide, ?_, ?_, ?_⟩
  · show (if ((26 : ℚ) / 25) < 0 then JsR.nan else JsR.num (Real.sqrt (((26 : ℚ) / 25 : ℚ) : ℝ)))
      = .num (Real.sqrt (26 / 25))
    rw [if_neg (by norm_num)]
    norm_num
  · rw [Real.lt_sqrt (by norm_num)]
    norm_num
  · rw [Real.sqrt_lt' (by norm_num)]
    norm_num

/-- C10: `findMode` on the empty sequence does not fail: it returns an empty
mode list with count 0; only the column-level wrapper
`analyzeCategoricalColumn` raises (naming the column) on an empty column. -/
theorem findMode_empty_spec :
    findMode ([] : List CellValue) = ⟨[], 0⟩ ∧
    ∀ (data : List Row) (col : String), categoricalValues data col = [] →
      analyzeCategoricalColumn data col = .error (.noValues col) := by
  refine ⟨rfl, ?_⟩
  intro data col h
  simp [analyzeCategoricalColumn, h]

/-- C10 witness at a concrete empty column. -/
theorem findMode_empty_spec_witness :
    findMode ([] : List CellValue) = ⟨[], 0⟩ ∧
    analyzeCategoricalColumn [[("x", CellValue.vnull)]] "x" = .error (.noValues "x") :=
  ⟨findMode_empty_spec.1, findMode_empty_spec.2 [[("x", CellValue.vnull)]] "x" (by decide)⟩

/-- Invariant of the argument loop: any teams value accepted by `parseArgs`
is a finite, non-negative number (helper for the C7 theorem). -/
theorem parseArgsLoop_teams_inv (argv : List String) (t0 s0 : Option JsNum) (r : CliArgs)
    (hinv : ∀ t, t0 = some t → jsIsFinite t = true ∧ jsLt t (.num 0) = false)
    (h : parseArgsLoop argv t0 s0 = .ok r) :
    ∀ t, r.teams = some t → jsIsFinite t = true ∧ jsLt t (.num 0) = false := by
  induction argv, t0, s0 using parseArgsLoop.induct with
  | case1 teams seed =>
    simp only [parseArgsLoop] at h
    cases h
    exact hinv
  | case2 teams seed =>
    simp [parseArgsLoop] at h
  | case3 teams seed v rest2 hsw =>
    simp [parseArgsLoop, hsw] at h
  | case4 teams seed v rest2 hsw hbad =>
    rcases hbad with hb | hb <;> simp [parseArgsLoop, hsw, hb] at h
  | case5 teams seed v rest2 hsw hok ih =>
    push_neg at hok
    obtain ⟨hok1, hok2⟩ := hok
    simp [parseArgsLoop, hsw, hok1, hok2] at h
    refine ih ?_ h
    intro t ht
    injection ht with ht
    subst ht
    exact ⟨hok1, by simpa using hok2⟩
  | case6 teams seed hne =>
    simp [parseArgsLoop, hne] at h
  | case7 teams seed v rest2 hsw hne =>
    simp [parseArgsLoop, hne, hsw] at h
  | case8 teams seed v rest2 hsw hfin hne =>
    simp [parseArgsLoop, hne, hsw, hfin] at h
  | case9 teams seed v rest2 hsw hfin hne ih =>
    push_neg at hfin
    simp [parseArgsLoop, hne, hsw, hfin] at h
    exact ih hinv h
  | case10 arg rest teams seed hne1 hne2 ih =>
    rw [parseArgsLoop.eq_def] at h
    simp only [if_neg hne1, if_neg hne2] at h
    exact ih hinv h

/-- C7 counterexample: `--teams 0.5` — a non-integer target below 1 — is
accepted with no error, and flows into `minClusters` unchanged; no
invalid-cluster-target error exists anywhere in the source. -/
theorem parseArgs_counterexample :
    parseArgs ["--teams", "0.5"] = .ok ⟨some (.num (1 / 2)), none⟩ ∧
    minClustersArg (some (.num (1 / 2))) = .num (1 / 2) := by decide


/-- A digit string beginning with a minus sign has no digit value
(helper for the C7 theorem). -/
theorem digitsVal?_dash (l : List Char) : digitsVal? ('-' :: l) = none := by
  simp only [digitsVal?]
  rw [show charDigit? '-' = none from by decide]

/-- An unsigned-literal parse fails on a leading minus sign
(helper for the C7 theorem). -/
theorem parseUnsigned?_dash (cs : List Char) : parseUnsigned? ('-' :: cs) = none := by
  have h1 : ('-' :: cs).takeWhile (fun c => decide (c ≠ '.')) =
      '-' :: cs.takeWhile (fun c => decide (c ≠ '.')) := by
    rw [List.takeWhile_cons, if_pos (by decide)]
  have h2 : ('-' :: cs).dropWhile (fun c => decide (c ≠ '.')) =
      cs.dropWhile (fun c => decide (c ≠ '.')) := by
    rw [List.dropWhile_cons, if_pos (by decide)]
  simp only [parseUnsigned?, h1, h2]
  cases hdw : cs.dropWhile (fun c => decide (c ≠ '.')) with
  | nil =>
    dsimp only
    rw [digitsVal?_dash]
  | cons c0 frac =>
    dsimp only
    rw [if_neg (by simp)]
    cases hfd : frac.dropWhile (fun c => decide (c ≠ '.')) with
    | cons _ _ => rfl
    | nil =>
      rw [digitsVal?_dash]

/-- A string passing the `--` prefix test starts with two dashes
(helper for the C7 theorem). -/
theorem startsWithDashDash_toList (s : String) (h : startsWithDashDash s = true) :
    ∃ cs, s.toList = '-' :: '-' :: cs := by
  cases hts : s.toList with
  | nil =>
    simp only [startsWithDashDash, hts] at h
    exact Bool.noConfusion h
  | cons c1 l1 =>
    cases l1 with
    | nil =>
      simp only [startsWithDashDash, hts] at h
      exact Bool.noConfusion h
    | cons c2 l2 =>
      simp only [startsWithDashDash, hts, Bool.and_eq_true, decide_eq_true_eq] at h
      obtain ⟨rfl, rfl⟩ := h
      exact ⟨l2, rfl⟩

/-- Trimming keeps the two leading dashes (helper for the C7 theorem). -/
theorem trimChars_dashdash (cs : List Char) :
    ∃ cs2, trimChars ('-' :: '-' :: cs) = '-' :: '-' :: cs2 := by
  simp only [trimChars]
  have h1 : List.dropWhile isWsChar ('-' :: '-' :: cs) = '-' :: '-' :: cs := by
    rw [List.dropWhile_cons, if_neg (by decide)]
  rw [h1]
  rw [show ('-' :: '-' :: cs).reverse = cs.reverse ++ ['-', '-'] by simp]
  rw [List.dropWhile_append]
  split_ifs with h
  · exact ⟨[], by decide⟩
  · refine ⟨(List.dropWhile isWsChar cs.reverse).reverse, ?_⟩
    rw [List.reverse_append]
    rfl

/-- `Number()` of a string starting with two dashes is `NaN`
(helper for the C7 theorem). -/
theorem jsNumber_dashdash (s : String) (h : startsWithDashDash s = true) :
    jsNumber s = .nan := by
  obtain ⟨cs, hts⟩ := startsWithDashDash_toList s h
  obtain ⟨cs2, htc⟩ := trimChars_dashdash cs
  have hne0 : ('-' :: '-' :: cs2 : List Char) ≠ [] := by simp
  have hne1 : ¬(('-' :: '-' :: cs2 : List Char) = "Infinity".toList ∨
      ('-' :: '-' :: cs2 : List Char) = "+Infinity".toList) := by
    rintro (hcon | hcon)
    · rw [show "Infinity".toList = ['I', 'n', 'f', 'i', 'n', 'i', 't', 'y'] from rfl] at hcon
      injection hcon with hc1 _
      exact absurd hc1 (by decide)
    · rw [show "+Infinity".toList = ['+', 'I', 'n', 'f', 'i', 'n', 'i', 't', 'y'] from rfl]
        at hcon
      injection hcon with hc1 _
      exact absurd hc1 (by decide)
  have hne2 : ('-' :: '-' :: cs2 : List Char) ≠ "-Infinity".toList := by
    intro hcon
    rw [show "-Infinity".toList = ['-', 'I', 'n', 'f', 'i', 'n', 'i', 't', 'y'] from rfl]
      at hcon
    injection hcon with _ hc2
    injection hc2 with hc2 _
    exact absurd hc2 (by decide)
  simp only [jsNumber, hts, htc]
  rw [if_neg hne0, if_neg hne1, if_neg hne2]
  simp [parseUnsigned?_dash]

/-- Universal acceptance: every `--teams` value whose `Number()` conversion
is finite and non-negative is accepted, with the parsed value stored
(helper for the C7 theorem). -/
theorem parseArgs_accepts_teams (s : String)
    (hfin : jsIsFinite (jsNumber s) = true) (hneg : jsLt (jsNumber s) (.num 0) = false) :
    parseArgs ["--teams", s] = .ok ⟨some (jsNumber s), none⟩ := by
  have hsw : ¬ startsWithDashDash s = true := by
    intro hb
    rw [jsNumber_dashdash s hb] at hfin
    cases hfin
  have hcond : ¬(¬ jsIsFinite (jsNumber s) = true ∨ jsLt (jsNumber s) (.num 0) = true) := by
    rintro (hc | hc)
    · exact hc hfin
    · rw [hneg] at hc
      cases hc
  simp only [parseArgs, parseArgsLoop, if_true]
  rw [if_neg hsw, if_neg hcond]

/-- C7 amended: `parseArgs` accepts every `--teams` value whose number
conversion is finite and non-negative (including 0 and non-integers), storing
the parsed value, and conversely any accepted teams value is finite and
non-negative — only negative or non-finite values are rejected, with the
teams-must-be-non-negative error; the cluster target defaults to 3 when the
flag is absent, and a parsed 0 also falls back to 3 through JavaScript
truthiness of `args.teams || 3`. -/
theorem parseArgs_teams_spec :
    (∀ s : String, jsIsFinite (jsNumber s) = true → jsLt (jsNumber s) (.num 0) = false →
      parseArgs ["--teams", s] = .ok ⟨some (jsNumber s), none⟩) ∧
    (∀ argv r, parseArgs argv = .ok r → ∀ t, r.teams = some t →
      jsIsFinite t = true ∧ jsLt t (.num 0) = false) ∧
    minClustersArg none = .num 3 ∧
    minClustersArg (some (.num 0)) = .num 3 ∧
    parseArgs ["--teams", "-1"] = .error .teamsMustBeNonneg := by
  refine ⟨parseArgs_accepts_teams, ?_, rfl, by decide, by decide⟩
  intro argv r h
  exact parseArgsLoop_teams_inv argv none none r (fun t ht => Option.noConfusion ht) h

/-- C7 amended, witness at concrete argument vectors: the non-integer value
2.5 is accepted through the universal direction, 2 is accepted and recorded
finite non-negative, and -1 is rejected. -/
theorem parseArgs_teams_spec_witness :
    parseArgs ["--teams", "2.5"] = .ok ⟨some (jsNumber "2.5"), none⟩ ∧
    (jsIsFinite (.num 2) = true ∧ jsLt (.num 2) (.num 0) = false) ∧
    minClustersArg none = .num 3 ∧
    minClustersArg (some (.num 0)) = .num 3 ∧
    parseArgs ["--teams", "-1"] = .error .teamsMustBeNonneg :=
  ⟨parseArgs_teams_spec.1 "2.5" (by decide) (by decide),
   parseArgs_teams_spec.2.1 ["--teams", "2"] ⟨some (.num 2), none⟩ (by decide) (.num 2) rfl,
   parseArgs_teams_spec.2.2.1, parseArgs_teams_spec.2.2.2.1, parseArgs_teams_spec.2.2.2.2⟩

/-!
Frequency-map lemmas (helpers for the `findMode` theorem).
-/

theorem freqOf_bumpFreq {β : Type} [DecidableEq β] (v w : β) :
    ∀ m : List (β × ℕ), freqOf (bumpFreq m v) w = if w = v then freqOf m v + 1 else freqOf m w := by
  intro m
  induction m with
  | nil =>
    by_cases hw : w = v
    · subst hw; simp [bumpFreq, freqOf]
    · simp [bumpFreq, freqOf, hw, Ne.symm hw]
  | cons e m ih =>
    by_cases he : e.1 = v
    · by_cases hw : w = v
      · subst hw; simp [bumpFreq, freqOf, he]
      · simp [bumpFreq, freqOf, he, hw, Ne.symm hw]
    · by_cases hw : w = v
      · subst hw
        have hee : ¬(e.1 = w) := he
        simp [bumpFreq, freqOf, he, hee, ih]
      · by_cases hew : e.1 = w
        · simp [bumpFreq, freqOf, he, hew, hw]
        · simp [bumpFreq, freqOf, he, hew, hw, ih]

theorem mem_keys_bumpFreq {β : Type} [DecidableEq β] (v w : β) :
    ∀ m : List (β × ℕ), w ∈ (bumpFreq m v).map Prod.fst ↔ w ∈ m.map Prod.fst ∨ w = v := by
  intro m
  induction m with
  | nil => simp [bumpFreq]
  | cons e m ih =>
    by_cases he : e.1 = v
    · subst he
      have hb : bumpFreq (e :: m) e.1 = (e.1, e.2 + 1) :: m := by simp [bumpFreq]
      rw [hb]
      simp only [List.map_cons, List.mem_cons]
      tauto
    · simp only [bumpFreq, if_neg he, List.map_cons, List.mem_cons, ih]
      tauto

theorem nodup_keys_bumpFreq {β : Type} [DecidableEq β] (v : β) :
    ∀ m : List (β × ℕ), (m.map Prod.fst).Nodup → ((bumpFreq m v).map Prod.fst).Nodup := by
  intro m
  induction m with
  | nil => intro _; simp [bumpFreq]
  | cons e m ih =>
    intro hm
    simp only [List.map_cons, List.nodup_cons] at hm
    by_cases he : e.1 = v
    · simp only [bumpFreq, if_pos he, List.map_cons, List.nodup_cons]
      exact hm
    · simp only [bumpFreq, if_neg he, List.map_cons, List.nodup_cons]
      refine ⟨?_, ih hm.2⟩
      rw [mem_keys_bumpFreq]
      rintro (h | h)
      · exact hm.1 h
      · exact he h

theorem freqOf_foldl_bumpFreq {β : Type} [DecidableEq β] (w : β) (vs : List β) :
    ∀ m : List (β × ℕ), freqOf (vs.foldl bumpFreq m) w = freqOf m w + vs.count w := by
  induction vs with
  | nil => intro m; simp
  | cons x vs ih =>
    intro m
    rw [List.foldl_cons, ih, freqOf_bumpFreq]
    by_cases hw : w = x
    · subst hw; simp [List.count_cons]; omega
    · simp [List.count_cons, hw, if_neg hw]

theorem mem_keys_foldl_bumpFreq {β : Type} [DecidableEq β] (w : β) (vs : List β) :
    ∀ m : List (β × ℕ),
      w ∈ ((vs.foldl bumpFreq m).map Prod.fst) ↔ w ∈ m.map Prod.fst ∨ w ∈ vs := by
  induction vs with
  | nil => intro m; simp
  | cons x vs ih =>
    intro m
    rw [List.foldl_cons, ih, mem_keys_bumpFreq]
    simp only [List.mem_cons]
    tauto

theorem nodup_keys_foldl_bumpFreq {β : Type} [DecidableEq β] (vs : List β) :
    ∀ m : List (β × ℕ), (m.map Prod.fst).Nodup → ((vs.foldl bumpFreq m).map Prod.fst).Nodup := by
  induction vs with
  | nil => intro m hm; exact hm
  | cons x vs ih =>
    intro m hm
    rw [List.foldl_cons]
    exact ih _ (nodup_keys_bumpFreq x m hm)

theorem freqOf_buildFrequencyMap {β : Type} [DecidableEq β] (vs : List β) (w : β) :
    freqOf (buildFrequencyMap vs) w = vs.count w := by
  rw [buildFrequencyMap, freqOf_foldl_bumpFreq]
  simp [freqOf]

theorem mem_keys_buildFrequencyMap {β : Type} [DecidableEq β] (vs : List β) (w : β) :
    w ∈ (buildFrequencyMap vs).map Prod.fst ↔ w ∈ vs := by
  rw [buildFrequencyMap, mem_keys_foldl_bumpFreq]
  simp

theorem nodup_keys_buildFrequencyMap {β : Type} [DecidableEq β] (vs : List β) :
    ((buildFrequencyMap vs).map Prod.fst).Nodup := by
  rw [buildFrequencyMap]
  exact nodup_keys_foldl_bumpFreq vs [] (by simp)

theorem entry_eq_freqOf {β : Type} [DecidableEq β] :
    ∀ m : List (β × ℕ), (m.map Prod.fst).Nodup → ∀ e ∈ m, e.2 = freqOf m e.1 := by
  intro m
  induction m with
  | nil => intro _ e he; cases he
  | cons e m ih =>
    intro hm e2 he2
    simp only [List.map_cons, List.nodup_cons] at hm
    rcases List.mem_cons.1 he2 with rfl | he2
    · simp [freqOf]
    · have hne : ¬(e.1 = e2.1) := by
        intro hc
        exact hm.1 (hc ▸ List.mem_map_of_mem Prod.fst he2)
      simp only [freqOf, if_neg hne]
      exact ih hm.2 e2 he2

theorem key_entry_mem {β : Type} [DecidableEq β] :
    ∀ (m : List (β × ℕ)) (w : β), w ∈ m.map Prod.fst → (w, freqOf m w) ∈ m := by
  intro m
  induction m with
  | nil => intro w hw; simp at hw
  | cons e m ih =>
    intro w hw
    by_cases hew : e.1 = w
    · subst hew
      simp [freqOf]
    · simp only [List.map_cons, List.mem_cons] at hw
      rcases hw with hw | hw
      · exact absurd hw.symm hew
      · simp only [freqOf, if_neg hew]
        exact List.mem_cons_of_mem _ (ih w hw)

theorem le_foldl_max (a : ℕ) (xs : List ℕ) :
    a ≤ xs.foldl max a ∧ ∀ x ∈ xs, x ≤ xs.foldl max a := by
  induction xs generalizing a with
  | nil => simp
  | cons x xs ih =>
    rw [List.foldl_cons]
    refine ⟨le_trans (le_max_left a x) (ih (max a x)).1, ?_⟩
    intro y hy
    rcases List.mem_cons.1 hy with rfl | hy
    · exact le_trans (le_max_right a y) (ih (max a y)).1
    · exact (ih (max a x)).2 y hy

theorem foldl_max_mem (a : ℕ) (xs : List ℕ) :
    xs.foldl max a = a ∨ xs.foldl max a ∈ xs := by
  induction xs generalizing a with
  | nil => exact Or.inl rfl
  | cons x xs ih =>
    rw [List.foldl_cons]
    rcases ih (max a x) with h | h
    · rcases max_choice a x with hm | hm
      · left; rw [h, hm]
      · right; rw [h, hm]; exact List.mem_cons_self x xs
    · right; exact List.mem_cons_of_mem _ h

/-- The fold of `findMode` computes the maximum frequency together with the
keys of all entries carrying it, in order (helper for the C6 theorem). -/
theorem findModeFold_eq {β : Type} (entries : List (β × ℕ)) :
    findModeFold entries =
      ((entries.map Prod.snd).foldl max 0,
       (entries.filter (fun e => decide (e.2 = (entries.map Prod.snd).foldl max 0))).map
         Prod.fst) := by
  induction entries using List.reverseRecOn with
  | nil => rfl
  | append_singleton l e ih =>
    have hmax : ((l ++ [e]).map Prod.snd).foldl max 0 = max ((l.map Prod.snd).foldl max 0) e.2 := by
      simp [List.foldl_append]
    have hstep : findModeFold (l ++ [e]) =
        (fun acc (e2 : β × ℕ) =>
          if e2.2 > acc.1 then (e2.2, [e2.1])
          else if e2.2 = acc.1 then (acc.1, acc.2 ++ [e2.1])
          else acc) (findModeFold l) e := by
      simp [findModeFold, List.foldl_append]
    rw [hstep, ih]
    rcases lt_trichotomy ((l.map Prod.snd).foldl max 0) e.2 with hlt | heq | hgt
    · have hfl : l.filter (fun e2 => decide (e2.2 = max ((l.map Prod.snd).foldl max 0) e.2)) = [] := by
        rw [List.filter_eq_nil_iff]
        intro a ha
        have := (le_foldl_max 0 (l.map Prod.snd)).2 a.2 (List.mem_map_of_mem Prod.snd ha)
        simp only [decide_eq_true_eq]
        rw [max_eq_right hlt.le]
        omega
      simp only [hmax, hlt, if_pos hlt, List.filter_append, hfl]
      rw [max_eq_right hlt.le]
      simp
    · simp only [hmax, heq, if_pos rfl, List.filter_append]
      rw [if_neg (by omega), max_self]
      simp [heq]
    · have hne : ¬(e.2 = (l.map Prod.snd).foldl max 0) := by omega
      simp only [hmax, List.filter_append]
      rw [if_neg (by omega), if_neg hne, max_eq_left hgt.le]
      simp [hne]

/-- C6: for every non-empty sequence of values, `findMode` returns as `count`
the maximum observed occurrence frequency (it is attained and bounds every
frequency), and as `mode` exactly the values whose frequency equals it —
every tied value included, no others. -/
theorem findMode_spec (values : List CellValue) (hne : values ≠ []) :
    (∃ v ∈ values, values.count v = (findMode values).count) ∧
    (∀ v ∈ values, values.count v ≤ (findMode values).count) ∧
    (∀ v, v ∈ (findMode values).mode ↔
      v ∈ values ∧ values.count v = (findMode values).count) := by
  have hcount : (findMode values).count =
      ((buildFrequencyMap values).map Prod.snd).foldl max 0 := by
    simp [findMode, findModeFold_eq]
  have hmode : (findMode values).mode =
      ((buildFrequencyMap values).filter
        (fun e => decide (e.2 = ((buildFrequencyMap values).map Prod.snd).foldl max 0))).map
        Prod.fst := by
    simp [findMode, findModeFold_eq]
  set fm := buildFrequencyMap values with hfmdef
  set M := (fm.map Prod.snd).foldl max 0 with hMdef
  have hub : ∀ v ∈ values, values.count v ≤ M := by
    intro v hv
    have hkey : v ∈ fm.map Prod.fst := (mem_keys_buildFrequencyMap values v).2 hv
    have hentry : (v, freqOf fm v) ∈ fm := key_entry_mem fm v hkey
    have hmemsnd : freqOf fm v ∈ fm.map Prod.snd := List.mem_map_of_mem Prod.snd hentry
    have h1 : values.count v = freqOf fm v := (freqOf_buildFrequencyMap values v).symm
    rw [h1]
    exact (le_foldl_max 0 _).2 _ hmemsnd
  have hex : ∃ v ∈ values, values.count v = M := by
    rcases foldl_max_mem 0 (fm.map Prod.snd) with h0 | hmem
    · obtain ⟨v0, hv0⟩ : ∃ v0, v0 ∈ values := by
        cases values with
        | nil => exact absurd rfl hne
        | cons a l => exact ⟨a, List.mem_cons_self a l⟩
      have h1 : 0 < values.count v0 := List.count_pos_iff.2 hv0
      have h2 := hub v0 hv0
      rw [← hMdef] at h0
      omega
    · obtain ⟨e, he, hesnd⟩ := List.mem_map.1 hmem
      refine ⟨e.1, (mem_keys_buildFrequencyMap values e.1).1
        (List.mem_map_of_mem Prod.fst he), ?_⟩
      have h1 : e.2 = freqOf fm e.1 := entry_eq_freqOf fm (nodup_keys_buildFrequencyMap values) e he
      rw [freqOf_buildFrequencyMap] at h1
      rw [← h1]
      exact hesnd
  have hiff : ∀ v, v ∈ (findMode values).mode ↔ v ∈ values ∧ values.count v = M := by
    intro v
    rw [hmode]
    constructor
    · intro hvm
      obtain ⟨e, hef, hev⟩ := List.mem_map.1 hvm
      obtain ⟨hefm, hecond⟩ := List.mem_filter.1 hef
      have he2 : e.2 = M := of_decide_eq_true hecond
      have hkey : e.1 ∈ values :=
        (mem_keys_buildFrequencyMap values e.1).1 (List.mem_map_of_mem Prod.fst hefm)
      have hfreq : e.2 = values.count e.1 := by
        rw [entry_eq_freqOf fm (nodup_keys_buildFrequencyMap values) e hefm,
          freqOf_buildFrequencyMap]
      subst hev
      exact ⟨hkey, by rw [← hfreq]; exact he2⟩
    · rintro ⟨hv, hc⟩
      have hkey : v ∈ fm.map Prod.fst := (mem_keys_buildFrequencyMap values v).2 hv
      have hentry : (v, freqOf fm v) ∈ fm := key_entry_mem fm v hkey
      refine List.mem_map.2 ⟨(v, freqOf fm v), List.mem_filter.2 ⟨hentry, ?_⟩, rfl⟩
      simp only [decide_eq_true_eq]
      rw [freqOf_buildFrequencyMap]
      exact hc
  rw [hcount]
  exact ⟨hex, hub, hiff⟩

/-- C6 witness at a concrete sequence with a tie. -/
theorem findMode_spec_witness :
    ([CellValue.vstr "a", .vstr "b", .vstr "a", .vstr "b"] ≠ []) ∧
    ((∃ v ∈ [CellValue.vstr "a", .vstr "b", .vstr "a", .vstr "b"],
        [CellValue.vstr "a", .vstr "b", .vstr "a", .vstr "b"].count v =
          (findMode [CellValue.vstr "a", .vstr "b", .vstr "a", .vstr "b"]).count) ∧
      (∀ v ∈ [CellValue.vstr "a", .vstr "b", .vstr "a", .vstr "b"],
        [CellValue.vstr "a", .vstr "b", .vstr "a", .vstr "b"].count v ≤
          (findMode [CellValue.vstr "a", .vstr "b", .vstr "a", .vstr "b"]).count) ∧
      (∀ v, v ∈ (findMode [CellValue.vstr "a", .vstr "b", .vstr "a", .vstr "b"]).mode ↔
        v ∈ [CellValue.vstr "a", .vstr "b", .vstr "a", .vstr "b"] ∧
        [CellValue.vstr "a", .vstr "b", .vstr "a", .vstr "b"].count v =
          (findMode [CellValue.vstr "a", .vstr "b", .vstr "a", .vstr "b"]).count)) :=
  ⟨by decide, findMode_spec [CellValue.vstr "a", .vstr "b", .vstr "a", .vstr "b"] (by decide)⟩

/-- The fold of `analyzeDataset` appends exactly the per-column contributions
(helper for the C8 theorem). -/
theorem analyzeDataset_foldl_fields (data : List Row) (cols : List String) :
    ∀ acc : DatasetAnalysis,
      (cols.foldl (analyzeDatasetStep data) acc).numericColumns =
          acc.numericColumns ++ numContrib data cols ∧
      (cols.foldl (analyzeDatasetStep data) acc).categoricalColumns =
          acc.categoricalColumns ++ catContrib data cols ∧
      (cols.foldl (analyzeDatasetStep data) acc).warnings =
          acc.warnings ++ warnContrib data cols := by
  induction cols with
  | nil => intro acc; simp [numContrib, catContrib, warnContrib]
  | cons c cols ih =>
    intro acc
    rw [List.foldl_cons]
    obtain ⟨h1, h2, h3⟩ := ih (analyzeDatasetStep data acc c)
    rcases hca : colAnalysis data c with e | v
    · refine ⟨?_, ?_, ?_⟩
      · rw [h1]
        simp [analyzeDatasetStep, hca, numContrib, List.filterMap_cons]
      · rw [h2]
        simp [analyzeDatasetStep, hca, catContrib, List.filterMap_cons]
      · rw [h3]
        simp [analyzeDatasetStep, hca, warnContrib, List.filter_cons]
    · cases v with
      | inl s =>
        refine ⟨?_, ?_, ?_⟩
        · rw [h1]
          simp [analyzeDatasetStep, hca, numContrib, List.filterMap_cons]
        · rw [h2]
          simp [analyzeDatasetStep, hca, catContrib, List.filterMap_cons]
        · rw [h3]
          simp [analyzeDatasetStep, hca, warnContrib, List.filter_cons]
      | inr a =>
        refine ⟨?_, ?_, ?_⟩
        · rw [h1]
          simp [analyzeDatasetStep, hca, numContrib, List.filterMap_cons]
        · rw [h2]
          simp [analyzeDatasetStep, hca, catContrib, List.filterMap_cons]
        · rw [h3]
          simp [analyzeDatasetStep, hca, warnContrib, List.filter_cons]

/-- Membership in the numeric contributions (helper for the C8 theorem). -/
theorem mem_numContrib (data : List Row) (cols : List String) (c : String) (s : NumericStats) :
    (c, s) ∈ numContrib data cols ↔ c ∈ cols ∧ colAnalysis data c = .ok (.inl s) := by
  simp only [numContrib, List.mem_filterMap]
  constructor
  · rintro ⟨a, ha, hfa⟩
    rcases hca : colAnalysis data a with e | v
    · rw [hca] at hfa; cases hfa
    · cases v with
      | inl s2 =>
        rw [hca] at hfa
        injection hfa with hfa
        injection hfa with hc hs
        subst hc; subst hs
        exact ⟨ha, hca⟩
      | inr a2 => rw [hca] at hfa; cases hfa
  · rintro ⟨hc, hca⟩
    exact ⟨c, hc, by rw [hca]⟩

/-- Membership in the categorical contributions (helper for the C8 theorem). -/
theorem mem_catContrib (data : List Row) (cols : List String) (c : String)
    (a : CategoricalAnalysis) :
    (c, a) ∈ catContrib data cols ↔ c ∈ cols ∧ colAnalysis data c = .ok (.inr a) := by
  simp only [catContrib, List.mem_filterMap]
  constructor
  · rintro ⟨b, hb, hfb⟩
    rcases hca : colAnalysis data b with e | v
    · rw [hca] at hfb; cases hfb
    · cases v with
      | inl s2 => rw [hca] at hfb; cases hfb
      | inr a2 =>
        rw [hca] at hfb
        injection hfb with hfb
        injection hfb with hc ha
        subst hc; subst ha
        exact ⟨hb, hca⟩
  · rintro ⟨hc, hca⟩
    exact ⟨c, hc, by rw [hca]⟩

/-- Membership in the warned columns (helper for the C8 theorem). -/
theorem mem_warnContrib (data : List Row) (cols : List String) (c : String) :
    c ∈ warnContrib data cols ↔ c ∈ cols ∧ ∃ e, colAnalysis data c = .error e := by
  simp only [warnContrib, List.mem_filter]
  constructor
  · rintro ⟨hc, hp⟩
    refine ⟨hc, ?_⟩
    rcases hca : colAnalysis data c with e | v
    · exact ⟨e, rfl⟩
    · rw [hca] at hp
      cases v <;> cases hp
  · rintro ⟨hc, e, hca⟩
    exact ⟨hc, by rw [hca]⟩

/-- C8: for every non-empty dataset, `analyzeDataset` returns a result
(never aborts): each column whose analysis succeeds appears with its value in
the matching result field, and each column whose analysis fails is omitted
from both result fields and recorded in the warning log instead. -/
theorem analyzeDataset_resilient (data : List Row) (hne : data ≠ []) :
    ∃ r, analyzeDataset data = .ok r ∧
      ∀ c ∈ columnsOf data,
        (∀ s, colAnalysis data c = .ok (.inl s) → (c, s) ∈ r.numericColumns) ∧
        (∀ a, colAnalysis data c = .ok (.inr a) → (c, a) ∈ r.categoricalColumns) ∧
        (∀ e, colAnalysis data c = .error e →
          c ∉ r.numericColumns.map Prod.fst ∧ c ∉ r.categoricalColumns.map Prod.fst ∧
          c ∈ r.warnings) := by
  refine ⟨(columnsOf data).foldl (analyzeDatasetStep data) ⟨[], [], [], []⟩, ?_, ?_⟩
  · simp [analyzeDataset, hne]
  · intro c hc
    obtain ⟨h1, h2, h3⟩ := analyzeDataset_foldl_fields data (columnsOf data) ⟨[], [], [], []⟩
    refine ⟨?_, ?_, ?_⟩
    · intro s hs
      rw [h1]
      simp only [List.nil_append]
      exact (mem_numContrib data (columnsOf data) c s).2 ⟨hc, hs⟩
    · intro a ha
      rw [h2]
      simp only [List.nil_append]
      exact (mem_catContrib data (columnsOf data) c a).2 ⟨hc, ha⟩
    · intro e heq
      refine ⟨?_, ?_, ?_⟩
      · rw [h1]
        simp only [List.nil_append]
        intro hmem
        obtain ⟨p, hp, hpc⟩ := List.mem_map.1 hmem
        obtain ⟨c2, s⟩ := p
        dsimp at hpc
        subst hpc
        have := ((mem_numContrib data (columnsOf data) c2 s).1 hp).2
        rw [this] at heq
        cases heq
      · rw [h2]
        simp only [List.nil_append]
        intro hmem
        obtain ⟨p, hp, hpc⟩ := List.mem_map.1 hmem
        obtain ⟨c2, a⟩ := p
        dsimp at hpc
        subst hpc
        have := ((mem_catContrib data (columnsOf data) c2 a).1 hp).2
        rw [this] at heq
        cases heq
      · rw [h3]
        simp only [List.nil_append]
        exact (mem_warnContrib data (columnsOf data) c).2 ⟨hc, e, heq⟩

/-- C8 witness at a concrete dataset with one succeeding and one failing
column (the all-null column "b" fails its categorical analysis). -/
theorem analyzeDataset_resilient_witness :
    ∃ r, analyzeDataset [[("a", CellValue.vnum (.num 1)), ("b", CellValue.vnull)]] = .ok r ∧
      ∀ c ∈ columnsOf [[("a", CellValue.vnum (.num 1)), ("b", CellValue.vnull)]],
        (∀ s, colAnalysis [[("a", CellValue.vnum (.num 1)), ("b", CellValue.vnull)]] c =
            .ok (.inl s) → (c, s) ∈ r.numericColumns) ∧
        (∀ a, colAnalysis [[("a", CellValue.vnum (.num 1)), ("b", CellValue.vnull)]] c =
            .ok (.inr a) → (c, a) ∈ r.categoricalColumns) ∧
        (∀ e, colAnalysis [[("a", CellValue.vnum (.num 1)), ("b", CellValue.vnull)]] c =
            .error e →
          c ∉ r.numericColumns.map Prod.fst ∧ c ∉ r.categoricalColumns.map Prod.fst ∧
          c ∈ r.warnings) :=
  analyzeDataset_resilient [[("a", CellValue.vnum (.num 1)), ("b", CellValue.vnull)]] (by decide)

/-- When the statistics mapping covers every index of a value list,
`scaleValues` succeeds, preserves the length, and scales pointwise
(helper for the C9 theorem). -/
theorem scaleValues_ok (fs : ℕ → Option FeatureStats) :
    ∀ (vs : List JsNum) (i : ℕ),
      (∀ k, k < vs.length → (fs (i + k)).isSome = true) →
      ∃ ws, scaleValues fs vs i = .ok ws ∧ ws.length = vs.length ∧
        ∀ k, k < vs.length → ∀ st, fs (i + k) = some st →
          ws.getD k .nan = scaleFeature (vs.getD k .nan) st := by
  intro vs
  induction vs with
  | nil =>
    intro i _
    exact ⟨[], rfl, rfl, fun k hk => absurd hk (by simp)⟩
  | cons v vs ih =>
    intro i h
    have h0 : (fs i).isSome = true := by simpa using h 0 (by simp)
    obtain ⟨st0, hst0⟩ := Option.isSome_iff_exists.1 h0
    obtain ⟨ws, hws, hlen, hpt⟩ := ih (i + 1) (fun k hk => by
      have h2 := h (k + 1) (by simpa using Nat.succ_lt_succ hk)
      rwa [show i + (k + 1) = i + 1 + k by omega] at h2)
    refine ⟨scaleFeature v st0 :: ws, ?_, by simp [hlen], ?_⟩
    · simp only [scaleValues, hst0, hws]
    · intro k hk st hst
      cases k with
      | zero =>
        simp only [List.getD_cons_zero]
        rw [Nat.add_zero] at hst
        rw [hst0] at hst
        injection hst with hst
        subst hst
        rfl
      | succ k2 =>
        simp only [List.getD_cons_succ]
        refine hpt k2 (by simpa using Nat.lt_of_succ_lt_succ hk) st ?_
        rwa [show i + 1 + k2 = i + (k2 + 1) by omega]

/-- When some required index is missing from the statistics mapping,
`scaleValues` fails with `missingStats` naming such an index
(helper for the C9 theorem). -/
theorem scaleValues_error (fs : ℕ → Option FeatureStats) :
    ∀ (vs : List JsNum) (i : ℕ),
      (∃ k, k < vs.length ∧ fs (i + k) = none) →
      ∃ j, scaleValues fs vs i = .error (.missingStats j) ∧ fs j = none ∧
        ∃ k, k < vs.length ∧ j = i + k := by
  intro vs
  induction vs with
  | nil =>
    rintro i ⟨k, hk, _⟩
    simp at hk
  | cons v vs ih =>
    intro i h
    rcases hfi : fs i with _ | st
    · exact ⟨i, by simp only [scaleValues, hfi], hfi, 0, by simp, by omega⟩
    · have h2 : ∃ k, k < vs.length ∧ fs (i + 1 + k) = none := by
        obtain ⟨k, hk, hnone⟩ := h
        cases k with
        | zero =>
          rw [Nat.add_zero, hfi] at hnone
          cases hnone
        | succ k2 =>
          exact ⟨k2, by simpa using Nat.lt_of_succ_lt_succ hk,
            by rwa [show i + 1 + k2 = i + (k2 + 1) by omega]⟩
      obtain ⟨j, hj, hjn, k2, hk2, hjk⟩ := ih (i + 1) h2
      refine ⟨j, ?_, hjn, k2 + 1, by simpa using Nat.succ_lt_succ hk2, by omega⟩
      simp only [scaleValues, hfi, hj]

/-- C9: `scaleDataset` on a mapping covering all feature indices returns the
same number of records in order, each keeping its name and feature-vector
length with every value replaced by `scaleFeature` of the raw value; on a
mapping missing a required dimension it fails with `missingStats` naming a
missing index that some record requires. -/
theorem scaleDataset_spec (data : List DataItem) (fs : ℕ → Option FeatureStats) :
    ((∀ item ∈ data, ∀ k, k < item.value.length → (fs k).isSome = true) →
      ∃ out, scaleDataset data fs = .ok out ∧ out.length = data.length ∧
        ∀ m, m < data.length →
          (out.getD m default).name = (data.getD m default).name ∧
          (out.getD m default).value.length = (data.getD m default).value.length ∧
          ∀ k st, k < (data.getD m default).value.length → fs k = some st →
            (out.getD m default).value.getD k .nan =
              scaleFeature ((data.getD m default).value.getD k .nan) st) ∧
    ((∃ item ∈ data, ∃ k, k < item.value.length ∧ fs k = none) →
      ∃ j, scaleDataset data fs = .error (.missingStats j) ∧ fs j = none ∧
        ∃ item ∈ data, j < item.value.length) := by
  induction data with
  | nil =>
    constructor
    · intro _
      exact ⟨[], rfl, rfl, fun m hm => absurd hm (by simp)⟩
    · rintro ⟨item, hmem, _⟩
      cases hmem
  | cons item rest ih =>
    constructor
    · intro hcov
      have hchead : ∀ k, k < item.value.length → (fs (0 + k)).isSome = true := by
        intro k hk
        rw [Nat.zero_add]
        exact hcov item (List.mem_cons_self item rest) k hk
      obtain ⟨ws, hws, hwlen, hwpt⟩ := scaleValues_ok fs item.value 0 hchead
      obtain ⟨out, hout, holen, hopt⟩ :=
        ih.1 (fun it hit k hk => hcov it (List.mem_cons_of_mem _ hit) k hk)
      refine ⟨⟨item.name, ws⟩ :: out, ?_, by simp [holen], ?_⟩
      · simp only [scaleDataset, hws, hout]
      · intro m hm
        cases m with
        | zero =>
          refine ⟨rfl, by simpa using hwlen, ?_⟩
          intro k st hk hst
          simpa using hwpt k (by simpa using hk) st (by rwa [Nat.zero_add])
        | succ m2 =>
          simpa using hopt m2 (by simpa using Nat.lt_of_succ_lt_succ hm)
    · intro h
      by_cases hhead : ∃ k, k < item.value.length ∧ fs k = none
      · obtain ⟨k0, hk0, hn0⟩ := hhead
        obtain ⟨j, hj, hjn, k, hk, hjk⟩ :=
          scaleValues_error fs item.value 0 ⟨k0, hk0, by rwa [Nat.zero_add]⟩
        refine ⟨j, ?_, hjn, item, List.mem_cons_self item rest, by omega⟩
        simp only [scaleDataset, hj]
      · have hchead : ∀ k, k < item.value.length → (fs (0 + k)).isSome = true := by
          intro k hk
          rw [Nat.zero_add]
          rcases hfk : fs k with _ | st
          · exact absurd ⟨k, hk, hfk⟩ hhead
          · rfl
        obtain ⟨ws, hws, _, _⟩ := scaleValues_ok fs item.value 0 hchead
        have h2 : ∃ it ∈ rest, ∃ k, k < it.value.length ∧ fs k = none := by
          obtain ⟨it, hit, hk⟩ := h
          rcases List.mem_cons.1 hit with rfl | hit2
          · exact absurd hk hhead
          · exact ⟨it, hit2, hk⟩
        obtain ⟨j, hj, hjn, it, hit, hlen⟩ := ih.2 h2
        refine ⟨j, ?_, hjn, it, List.mem_cons_of_mem _ hit, hlen⟩
        simp only [scaleDataset, hws, hj]

/-- C9 witness: a covering mapping on a one-record dataset, and a mapping
with no entries on the same record shape. -/
theorem scaleDataset_spec_witness :
    (∃ out, scaleDataset [⟨"a", [JsNum.num 1]⟩]
        (fun _ => some ⟨.num 0, .num 2, .num 0, .num 1⟩) = .ok out ∧
      out.length = [(⟨"a", [JsNum.num 1]⟩ : DataItem)].length ∧
      ∀ m, m < [(⟨"a", [JsNum.num 1]⟩ : DataItem)].length →
        (out.getD m default).name =
          ([(⟨"a", [JsNum.num 1]⟩ : DataItem)].getD m default).name ∧
        (out.getD m default).value.length =
          ([(⟨"a", [JsNum.num 1]⟩ : DataItem)].getD m default).value.length ∧
        ∀ k st, k < ([(⟨"a", [JsNum.num 1]⟩ : DataItem)].getD m default).value.length →
          (fun _ => some (⟨.num 0, .num 2, .num 0, .num 1⟩ : FeatureStats)) k = some st →
          (out.getD m default).value.getD k .nan =
            scaleFeature (([(⟨"a", [JsNum.num 1]⟩ : DataItem)].getD m default).value.getD k .nan)
              st) ∧
    (∃ j, scaleDataset [⟨"a", [JsNum.num 1]⟩] (fun _ => none) =
        .error (.missingStats j) ∧ (fun _ => (none : Option FeatureStats)) j = none ∧
      ∃ item ∈ [(⟨"a", [JsNum.num 1]⟩ : DataItem)], j < item.value.length) :=
  ⟨(scaleDataset_spec [⟨"a", [JsNum.num 1]⟩]
      (fun _ => some ⟨.num 0, .num 2, .num 0, .num 1⟩)).1 (fun _ _ _ _ => rfl),
   (scaleDataset_spec [⟨"a", [JsNum.num 1]⟩] (fun _ => none)).2
      ⟨⟨"a", [JsNum.num 1]⟩, List.mem_cons_self _ _, 0, by simp, rfl⟩⟩

/-!
Single-linkage clustering lemmas (helpers for the C4 theorem).
-/

theorem minList_le_init {α : Type} [LinearOrder α] :
    ∀ (ys : List α) (x : α), minList x ys ≤ x := by
  intro ys
  induction ys with
  | nil => intro x; exact le_refl x
  | cons y ys ih => intro x; exact le_trans (ih (min x y)) (min_le_left x y)

theorem minList_le_mem {α : Type} [LinearOrder α] :
    ∀ (ys : List α) (x a : α), a ∈ ys → minList x ys ≤ a := by
  intro ys
  induction ys with
  | nil => intro x a ha; cases ha
  | cons y ys ih =>
    intro x a ha
    rcases List.mem_cons.1 ha with rfl | ha
    · exact le_trans (minList_le_init ys (min x a)) (min_le_right x a)
    · exact ih (min x y) a ha

theorem minList_mem {α : Type} [LinearOrder α] :
    ∀ (ys : List α) (x : α), minList x ys = x ∨ minList x ys ∈ ys := by
  intro ys
  induction ys with
  | nil => intro x; exact Or.inl rfl
  | cons y ys ih =>
    intro x
    rcases ih (min x y) with h | h
    · rcases min_choice x y with hm | hm
      · refine Or.inl ?_
        rw [minList, h, hm]
      · refine Or.inr ?_
        rw [minList, h, hm]
        exact List.mem_cons_self y ys
    · refine Or.inr (List.mem_cons_of_mem y ?_)
      rw [minList]
      exact h

theorem mem_allPairs : ∀ (A B : List ℕ) (p : ℕ × ℕ), p ∈ allPairs A B ↔ p.1 ∈ A ∧ p.2 ∈ B := by
  intro A
  induction A with
  | nil => intro B p; simp [allPairs]
  | cons a as ih =>
    intro B p
    obtain ⟨p1, p2⟩ := p
    simp only [allPairs, List.mem_append, List.mem_map, ih, List.mem_cons, Prod.mk.injEq]
    constructor
    · rintro (⟨b, hb, rfl, rfl⟩ | ⟨h1, h2⟩)
      · exact ⟨Or.inl rfl, hb⟩
      · exact ⟨Or.inr h1, h2⟩
    · rintro ⟨rfl | h1, h2⟩
      · exact Or.inl ⟨p2, h2, rfl, rfl⟩
      · exact Or.inr ⟨h1, h2⟩

theorem allPairs_map_ne_nil {α : Type} [LinearOrder α] (d : ℕ → ℕ → α) (A B : List ℕ)
    (hA : A ≠ []) (hB : B ≠ []) :
    (allPairs A B).map (fun p => d p.1 p.2) ≠ [] := by
  obtain ⟨a, as, rfl⟩ := List.exists_cons_of_ne_nil hA
  obtain ⟨b, bs, rfl⟩ := List.exists_cons_of_ne_nil hB
  have hmem : (a, b) ∈ allPairs (a :: as) (b :: bs) :=
    (mem_allPairs _ _ _).2 ⟨List.mem_cons_self a as, List.mem_cons_self b bs⟩
  intro hnil
  rw [List.map_eq_nil_iff] at hnil
  rw [hnil] at hmem
  cases hmem

theorem clusterDist_le {α : Type} [LinearOrder α] (d : ℕ → ℕ → α) (A B : List ℕ)
    (a b : ℕ) (ha : a ∈ A) (hb : b ∈ B) :
    clusterDist d A B ≤ d a b := by
  have hmem : d a b ∈ (allPairs A B).map (fun p => d p.1 p.2) :=
    List.mem_map.2 ⟨(a, b), (mem_allPairs A B (a, b)).2 ⟨ha, hb⟩, rfl⟩
  cases hAP : (allPairs A B).map (fun p => d p.1 p.2) with
  | nil => rw [hAP] at hmem; cases hmem
  | cons x xs =>
    rw [hAP] at hmem
    simp only [clusterDist, hAP]
    rcases List.mem_cons.1 hmem with heq | hm
    · rw [heq]
      exact minList_le_init xs x
    · exact minList_le_mem xs x _ hm

theorem clusterDist_exists {α : Type} [LinearOrder α] (d : ℕ → ℕ → α) (A B : List ℕ)
    (hA : A ≠ []) (hB : B ≠ []) :
    ∃ a ∈ A, ∃ b ∈ B, clusterDist d A B = d a b := by
  cases hAP : (allPairs A B).map (fun p => d p.1 p.2) with
  | nil => exact absurd hAP (allPairs_map_ne_nil d A B hA hB)
  | cons x xs =>
    have hm : minList x xs ∈ (allPairs A B).map (fun p => d p.1 p.2) := by
      rw [hAP]
      rcases minList_mem xs x with h | h
      · rw [h]; exact List.mem_cons_self x xs
      · exact List.mem_cons_of_mem x h
    obtain ⟨p, hp, hpd⟩ := List.mem_map.1 hm
    obtain ⟨hp1, hp2⟩ := (mem_allPairs A B p).1 hp
    refine ⟨p.1, hp1, p.2, hp2, ?_⟩
    simp only [clusterDist, hAP]
    exact hpd.symm

theorem clusterDist_symm {α : Type} [LinearOrder α] (d : ℕ → ℕ → α)
    (hsym : ∀ a b, d a b = d b a) (A B : List ℕ) (hA : A ≠ []) (hB : B ≠ []) :
    clusterDist d A B = clusterDist d B A := by
  have h1 : clusterDist d A B ≤ clusterDist d B A := by
    obtain ⟨b, hb, a, ha, heq⟩ := clusterDist_exists d B A hB hA
    rw [heq, hsym b a]
    exact clusterDist_le d A B a b ha hb
  have h2 : clusterDist d B A ≤ clusterDist d A B := by
    obtain ⟨a, ha, b, hb, heq⟩ := clusterDist_exists d A B hA hB
    rw [heq, hsym a b]
    exact clusterDist_le d B A b a hb ha
  exact le_antisymm h1 h2

theorem getD_append_lt {γ : Type} :
    ∀ (l1 l2 : List γ) (dflt : γ) (n : ℕ), n < l1.length →
      (l1 ++ l2).getD n dflt = l1.getD n dflt := by
  intro l1
  induction l1 with
  | nil => intro l2 dflt n hn; simp at hn
  | cons x l1 ih =>
    intro l2 dflt n hn
    cases n with
    | zero => rfl
    | succ n2 => simpa using ih l2 dflt n2 (by simpa using hn)

theorem getD_append_ge {γ : Type} :
    ∀ (l1 l2 : List γ) (dflt : γ) (n : ℕ), l1.length ≤ n →
      (l1 ++ l2).getD n dflt = l2.getD (n - l1.length) dflt := by
  intro l1
  induction l1 with
  | nil => intro l2 dflt n _; simp
  | cons x l1 ih =>
    intro l2 dflt n hn
    cases n with
    | zero => simp at hn
    | succ n2 =>
      have h2 : l1.length ≤ n2 := by simpa using hn
      simpa using ih l2 dflt n2 h2

theorem getD_take {γ : Type} :
    ∀ (l : List γ) (m n : ℕ) (dflt : γ), n < m → (l.take m).getD n dflt = l.getD n dflt := by
  intro l
  induction l with
  | nil => intro m n dflt _; simp
  | cons x l ih =>
    intro m n dflt hn
    cases m with
    | zero => simp at hn
    | succ m2 =>
      cases n with
      | zero => rfl
      | succ n2 => simpa using ih m2 n2 dflt (by omega)

theorem getD_drop {γ : Type} :
    ∀ (l : List γ) (m n : ℕ) (dflt : γ), (l.drop m).getD n dflt = l.getD (m + n) dflt := by
  intro l
  induction l with
  | nil => intro m n dflt; simp
  | cons x l ih =>
    intro m n dflt
    cases m with
    | zero => simp
    | succ m2 =>
      have h2 := ih m2 n dflt
      rw [List.drop_succ_cons, h2, show m2 + 1 + n = (m2 + n) + 1 by omega,
        List.getD_cons_succ]

theorem getD_mem {γ : Type} :
    ∀ (l : List γ) (n : ℕ) (dflt : γ), n < l.length → l.getD n dflt ∈ l := by
  intro l
  induction l with
  | nil => intro n dflt hn; simp at hn
  | cons x l ih =>
    intro n dflt hn
    cases n with
    | zero => exact List.mem_cons_self x l
    | succ n2 => exact List.mem_cons_of_mem x (ih n2 dflt (by simpa using hn))

theorem mem_getD {γ : Type} (dflt : γ) :
    ∀ (l : List γ) (a : γ), a ∈ l → ∃ n, n < l.length ∧ l.getD n dflt = a := by
  intro l
  induction l with
  | nil => intro a ha; cases ha
  | cons x l ih =>
    intro a ha
    rcases List.mem_cons.1 ha with rfl | ha
    · exact ⟨0, by simp, rfl⟩
    · obtain ⟨n, hn, hget⟩ := ih a ha
      exact ⟨n + 1, by simpa using hn, by simpa using hget⟩

theorem pairDists_idx_mem {α : Type} [LinearOrder α] (d : ℕ → ℕ → α) :
    ∀ (cs : List (List ℕ)) (p q : ℕ), p < q → q < cs.length →
      clusterDist d (cs.getD p []) (cs.getD q []) ∈ pairDists d cs := by
  intro cs
  induction cs with
  | nil => intro p q _ hq; simp at hq
  | cons c cs ih =>
    intro p q hpq hq
    simp only [pairDists, List.mem_append]
    cases p with
    | zero =>
      left
      obtain ⟨q2, rfl⟩ : ∃ q2, q = q2 + 1 := ⟨q - 1, by omega⟩
      refine List.mem_map.2 ⟨cs.getD q2 [], getD_mem cs q2 [] (by simpa using hq), ?_⟩
      simp
    | succ p2 =>
      right
      obtain ⟨q2, rfl⟩ : ∃ q2, q = q2 + 1 := ⟨q - 1, by omega⟩
      simpa using ih p2 q2 (by omega) (by simpa using hq)

theorem pairDists_mem_idx {α : Type} [LinearOrder α] (d : ℕ → ℕ → α) :
    ∀ (cs : List (List ℕ)) (x : α), x ∈ pairDists d cs →
      ∃ p q, p < q ∧ q < cs.length ∧ x = clusterDist d (cs.getD p []) (cs.getD q []) := by
  intro cs
  induction cs with
  | nil => intro x hx; cases hx
  | cons c cs ih =>
    intro x hx
    rcases List.mem_append.1 hx with hx | hx
    · obtain ⟨c2, hc2, rfl⟩ := List.mem_map.1 hx
      obtain ⟨q2, hq2, hgd⟩ := mem_getD [] cs c2 hc2
      refine ⟨0, q2 + 1, by omega, by simpa using hq2, ?_⟩
      rw [List.getD_cons_zero, List.getD_cons_succ, hgd]
    · obtain ⟨p, q, hpq, hq, rfl⟩ := ih x hx
      exact ⟨p + 1, q + 1, by omega, by simpa using hq, by simp⟩

theorem mem_pairsBelow : ∀ (n : ℕ) (p : ℕ × ℕ), p ∈ pairsBelow n ↔ p.1 < p.2 ∧ p.2 < n := by
  intro n
  induction n with
  | zero => intro p; simp [pairsBelow]
  | succ n ih =>
    intro p
    obtain ⟨p1, p2⟩ := p
    simp only [pairsBelow, List.mem_append, ih, List.mem_map, List.mem_range, Prod.mk.injEq]
    constructor
    · rintro (⟨h1, h2⟩ | ⟨i, hi, rfl, rfl⟩)
      · exact ⟨h1, by omega⟩
      · exact ⟨hi, by omega⟩
    · rintro ⟨h1, h2⟩
      by_cases hp2 : p2 = n
      · subst hp2
        exact Or.inr ⟨p1, h1, rfl, rfl⟩
      · exact Or.inl ⟨h1, by omega⟩

theorem argminBy_cons_isSome {α β : Type} [LinearOrder α] (f : β → α) (x : β) (l : List β) :
    (argminBy f (x :: l)).isSome = true := by
  simp only [argminBy]
  cases argminBy f l with
  | none => rfl
  | some c =>
    dsimp only
    split <;> rfl

theorem argminBy_mem {α β : Type} [LinearOrder α] (f : β → α) :
    ∀ (l : List β) (b : β), argminBy f l = some b → b ∈ l := by
  intro l
  induction l with
  | nil => intro b h; cases h
  | cons x l ih =>
    intro b h
    simp only [argminBy] at h
    cases hrec : argminBy f l with
    | none =>
      rw [hrec] at h
      injection h with h
      subst h
      exact List.mem_cons_self x l
    | some c =>
      rw [hrec] at h
      dsimp only at h
      by_cases hle : f x ≤ f c
      · rw [if_pos hle] at h
        injection h with h
        subst h
        exact List.mem_cons_self x l
      · rw [if_neg hle] at h
        injection h with h
        subst h
        exact List.mem_cons_of_mem x (ih _ hrec)

theorem argminBy_le {α β : Type} [LinearOrder α] (f : β → α) :
    ∀ (l : List β) (b : β), argminBy f l = some b → ∀ y ∈ l, f b ≤ f y := by
  intro l
  induction l with
  | nil => intro b h; cases h
  | cons x l ih =>
    intro b h y hy
    simp only [argminBy] at h
    cases hrec : argminBy f l with
    | none =>
      rw [hrec] at h
      injection h with h
      subst h
      rcases List.mem_cons.1 hy with rfl | hy
      · exact le_refl _
      · cases l with
        | nil => cases hy
        | cons z l2 =>
          have hsome := argminBy_cons_isSome f z l2
          rw [hrec] at hsome
          cases hsome
    | some c =>
      rw [hrec] at h
      dsimp only at h
      by_cases hle : f x ≤ f c
      · rw [if_pos hle] at h
        injection h with h
        subst h
        rcases List.mem_cons.1 hy with rfl | hy
        · exact le_refl _
        · exact le_trans hle (ih c hrec y hy)
      · rw [if_neg hle] at h
        injection h with h
        subst h
        rcases List.mem_cons.1 hy with rfl | hy
        · exact le_of_not_le hle
        · exact ih _ hrec y hy

theorem mergeAt_length (cs : List (List ℕ)) (i j : ℕ) (hij : i < j) (hj : j < cs.length) :
    (mergeAt cs i j).length = cs.length - 1 := by
  simp only [mergeAt, List.length_append, List.length_cons, List.length_take, List.length_drop]
  omega

theorem drop_eq_getD_cons {γ : Type} (dflt : γ) :
    ∀ (l : List γ) (n : ℕ), n < l.length → l.drop n = l.getD n dflt :: l.drop (n + 1) := by
  intro l
  induction l with
  | nil => intro n hn; simp at hn
  | cons x l ih =>
    intro n hn
    cases n with
    | zero => rfl
    | succ n2 => simpa using ih n2 (by simpa using hn)

theorem cs_decomp (cs : List (List ℕ)) (i j : ℕ) (hij : i < j) (hj : j < cs.length) :
    cs = cs.take i ++ cs.getD i [] ::
      ((cs.drop (i + 1)).take (j - i - 1) ++ cs.getD j [] :: cs.drop (j + 1)) := by
  have hdi : cs.drop i = cs.getD i [] :: cs.drop (i + 1) :=
    drop_eq_getD_cons [] cs i (by omega)
  have hdj : cs.drop j = cs.getD j [] :: cs.drop (j + 1) :=
    drop_eq_getD_cons [] cs j hj
  have h3 : (cs.drop (i + 1)).drop (j - i - 1) = cs.drop j := by
    rw [List.drop_drop]
    congr 1
    omega
  have h2 : cs.drop (i + 1) =
      (cs.drop (i + 1)).take (j - i - 1) ++ cs.getD j [] :: cs.drop (j + 1) := by
    conv_lhs => rw [← List.take_append_drop (j - i - 1) (cs.drop (i + 1))]
    rw [h3, hdj]
  conv_lhs => rw [← List.take_append_drop i cs, hdi, h2]

theorem mergeAt_flatten_perm (cs : List (List ℕ)) (i j : ℕ) (hij : i < j)
    (hj : j < cs.length) : (mergeAt cs i j).flatten.Perm cs.flatten := by
  conv_rhs => rw [cs_decomp cs i j hij hj]
  simp only [mergeAt, List.flatten_append, List.flatten_cons, List.append_assoc]
  refine List.Perm.append_left _ ?_
  refine List.Perm.append_left _ ?_
  exact List.perm_append_comm_assoc _ _ _

theorem mergeAt_mem (cs : List (List ℕ)) (i j : ℕ) :
    ∀ c ∈ mergeAt cs i j, c ∈ cs ∨ c = cs.getD i [] ++ cs.getD j [] := by
  intro c hc
  simp only [mergeAt, List.mem_append, List.mem_cons] at hc
  rcases hc with hc | hc | hc | hc
  · exact Or.inl (List.take_subset i cs hc)
  · exact Or.inr hc
  · exact Or.inl (List.drop_subset _ _ (List.take_subset _ _ hc))
  · exact Or.inl (List.drop_subset _ _ hc)

theorem mergeAt_getD (cs : List (List ℕ)) (i j : ℕ) (hij : i < j) (hj : j < cs.length)
    (k : ℕ) :
    (mergeAt cs i j).getD k [] =
      if k < i then cs.getD k []
      else if k = i then cs.getD i [] ++ cs.getD j []
      else if k < j then cs.getD k []
      else cs.getD (k + 1) [] := by
  have hti : (cs.take i).length = i := by rw [List.length_take]; omega
  have htm : ((cs.drop (i + 1)).take (j - i - 1)).length = j - i - 1 := by
    rw [List.length_take, List.length_drop]; omega
  by_cases h1 : k < i
  · rw [if_pos h1]
    simp only [mergeAt]
    rw [getD_append_lt _ _ _ _ (by rw [hti]; omega)]
    exact getD_take _ _ _ _ h1
  · by_cases h2 : k = i
    · subst h2
      rw [if_neg h1, if_pos rfl]
      simp only [mergeAt]
      rw [getD_append_ge _ _ _ _ (by rw [hti]), hti, show k - k = 0 by omega,
        List.getD_cons_zero]
    · by_cases h3 : k < j
      · rw [if_neg h1, if_neg h2, if_pos h3]
        simp only [mergeAt]
        rw [getD_append_ge _ _ _ _ (by rw [hti]; omega), hti]
        obtain ⟨k2, hk2⟩ : ∃ k2, k - i = k2 + 1 := ⟨k - i - 1, by omega⟩
        rw [hk2, List.getD_cons_succ]
        rw [getD_append_lt _ _ _ _ (by rw [htm]; omega)]
        rw [getD_take _ _ _ _ (by omega : k2 < j - i - 1)]
        rw [getD_drop]
        congr 1
        omega
      · rw [if_neg h1, if_neg h2, if_neg h3]
        simp only [mergeAt]
        rw [getD_append_ge _ _ _ _ (by rw [hti]; omega), hti]
        obtain ⟨k2, hk2⟩ : ∃ k2, k - i = k2 + 1 := ⟨k - i - 1, by omega⟩
        rw [hk2, List.getD_cons_succ]
        rw [getD_append_ge _ _ _ _ (by rw [htm]; omega), htm]
        rw [getD_drop]
        congr 1
        omega

theorem mergeOnce_some {α : Type} [LinearOrder α] (d : ℕ → ℕ → α) (cs cs2 : List (List ℕ))
    (dist : α) (h : mergeOnce d cs = some (cs2, dist)) :
    ∃ i j, i < j ∧ j < cs.length ∧ cs2 = mergeAt cs i j ∧
      dist = clusterDist d (cs.getD i []) (cs.getD j []) ∧
      ∀ p q, p < q → q < cs.length → dist ≤ clusterDist d (cs.getD p []) (cs.getD q []) := by
  simp only [mergeOnce] at h
  cases harg : argminBy (fun p => clusterDist d (cs.getD p.1 []) (cs.getD p.2 []))
      (pairsBelow cs.length) with
  | none => rw [harg] at h; cases h
  | some pr =>
    rw [harg] at h
    obtain ⟨i0, j0⟩ := pr
    dsimp only at h
    injection h with h
    injection h with h3 h4
    subst h3
    subst h4
    have hmem := argminBy_mem _ _ _ harg
    rw [mem_pairsBelow] at hmem
    refine ⟨i0, j0, hmem.1, hmem.2, rfl, rfl, ?_⟩
    intro p q hpq hq
    exact argminBy_le _ _ _ harg (p, q) ((mem_pairsBelow _ _).2 ⟨hpq, hq⟩)

theorem mergeOnce_isSome {α : Type} [LinearOrder α] (d : ℕ → ℕ → α) (cs : List (List ℕ))
    (h2 : 2 ≤ cs.length) : ∃ z, mergeOnce d cs = some z := by
  have hmem01 : ((0, 1) : ℕ × ℕ) ∈ pairsBelow cs.length :=
    (mem_pairsBelow _ _).2 ⟨by omega, by omega⟩
  simp only [mergeOnce]
  cases harg : argminBy (fun p => clusterDist d (cs.getD p.1 []) (cs.getD p.2 []))
      (pairsBelow cs.length) with
  | none =>
    exfalso
    cases hpb : pairsBelow cs.length with
    | nil => rw [hpb] at hmem01; cases hmem01
    | cons z l =>
      have hs := argminBy_cons_isSome
        (fun p => clusterDist d (cs.getD p.1 []) (cs.getD p.2 [])) z l
      rw [← hpb, harg] at hs
      cases hs
  | some pr =>
    obtain ⟨i0, j0⟩ := pr
    exact ⟨_, rfl⟩

theorem mergeOnce_pairDists_lb {α : Type} [LinearOrder α] (d : ℕ → ℕ → α)
    (hsym : ∀ a b, d a b = d b a) (cs cs2 : List (List ℕ)) (dist : α)
    (hne : ∀ c ∈ cs, c ≠ []) (h : mergeOnce d cs = some (cs2, dist)) :
    ∀ x ∈ pairDists d cs2, dist ≤ x := by
  obtain ⟨i, j, hij, hj, rfl, hdist, hmin⟩ := mergeOnce_some d cs _ _ h
  subst hdist
  have hmin2 : ∀ u v, u ≠ v → u < cs.length → v < cs.length →
      clusterDist d (cs.getD i []) (cs.getD j []) ≤
        clusterDist d (cs.getD u []) (cs.getD v []) := by
    intro u v huv hu hv
    rcases lt_or_gt_of_ne huv with hlt | hgt
    · exact hmin u v hlt hv
    · rw [clusterDist_symm d hsym _ _ (hne _ (getD_mem _ _ _ hu)) (hne _ (getD_mem _ _ _ hv))]
      exact hmin v u hgt hu
  have hMne : cs.getD i [] ++ cs.getD j [] ≠ [] := by
    intro hc
    exact hne _ (getD_mem _ _ _ (by omega : i < cs.length)) (List.append_eq_nil.1 hc).1
  have hmerged : ∀ t, t < cs.length → t ≠ i → t ≠ j →
      clusterDist d (cs.getD i []) (cs.getD j []) ≤
        clusterDist d (cs.getD i [] ++ cs.getD j []) (cs.getD t []) := by
    intro t ht hti htj
    have hctA : cs.getD t [] ≠ [] := hne _ (getD_mem _ _ _ ht)
    obtain ⟨a, ha, b, hb, heq⟩ := clusterDist_exists d _ _ hMne hctA
    rw [heq]
    rcases List.mem_append.1 ha with ha | ha
    · exact le_trans (hmin2 i t (fun hc => hti hc.symm) (by omega) ht)
        (clusterDist_le d _ _ a b ha hb)
    · exact le_trans (hmin2 j t (fun hc => htj hc.symm) hj ht)
        (clusterDist_le d _ _ a b ha hb)
  intro x hx
  obtain ⟨p, q, hpq, hq, rfl⟩ := pairDists_mem_idx d _ x hx
  rw [mergeAt_length cs i j hij hj] at hq
  have hshift : ∀ k, k ≠ i → k < cs.length - 1 →
      (mergeAt cs i j).getD k [] = cs.getD (if k < j then k else k + 1) [] := by
    intro k hk _
    rw [mergeAt_getD cs i j hij hj k]
    split_ifs <;> first | rfl | omega
  have hmergedAt : (mergeAt cs i j).getD i [] = cs.getD i [] ++ cs.getD j [] := by
    rw [mergeAt_getD cs i j hij hj i]
    split_ifs <;> first | rfl | omega
  by_cases hpi : p = i
  · subst hpi
    rw [hmergedAt, hshift q (by omega) hq]
    by_cases hq2 : q < j
    · rw [if_pos hq2]
      exact hmerged q (by omega) (by omega) (by omega)
    · rw [if_neg hq2]
      exact hmerged (q + 1) (by omega) (by omega) (by omega)
  · by_cases hqi : q = i
    · subst hqi
      rw [hmergedAt, hshift p (by omega) (by omega)]
      have hp2 : p < j := by omega
      rw [if_pos hp2]
      rw [clusterDist_symm d hsym _ _ (hne _ (getD_mem _ _ _ (by omega : p < cs.length))) hMne]
      exact hmerged p (by omega) (by omega) (by omega)
    · rw [hshift p hpi (by omega), hshift q hqi hq]
      by_cases hp2 : p < j <;> by_cases hq2 : q < j
      · rw [if_pos hp2, if_pos hq2]
        exact hmin2 p q (by omega) (by omega) (by omega)
      · rw [if_pos hp2, if_neg hq2]
        exact hmin2 p (q + 1) (by omega) (by omega) (by omega)
      · exact absurd (show p < j by omega) hp2
      · rw [if_neg hp2, if_neg hq2]
        exact hmin2 (p + 1) (q + 1) (by omega) (by omega) (by omega)

theorem clusterLoop_good {α : Type} [LinearOrder α] (d : ℕ → ℕ → α) (target n : ℕ) :
    ∀ (fuel : ℕ) (cs : List (List ℕ)), GoodPartition n cs →
      ∀ pr ∈ clusterLoop d target fuel cs, GoodPartition n pr.1 := by
  intro fuel
  induction fuel with
  | zero => intro cs _ pr hpr; cases hpr
  | succ fuel ih =>
    intro cs hgood pr hpr
    simp only [clusterLoop] at hpr
    split at hpr
    · cases hpr
    · cases hm : mergeOnce d cs with
      | none => rw [hm] at hpr; cases hpr
      | some z =>
        obtain ⟨cs2, dist⟩ := z
        rw [hm] at hpr
        obtain ⟨i, j, hij, hj, hcs2, _, _⟩ := mergeOnce_some d cs _ _ hm
        have hgood2 : GoodPartition n cs2 := by
          subst hcs2
          constructor
          · exact (mergeAt_flatten_perm cs i j hij hj).trans hgood.1
          · intro c hc
            rcases mergeAt_mem cs i j c hc with hc2 | hc2
            · exact hgood.2 c hc2
            · rw [hc2]
              intro hcnil
              exact hgood.2 _ (getD_mem _ _ _ (by omega : i < cs.length))
                (List.append_eq_nil.1 hcnil).1
        rcases List.mem_cons.1 hpr with rfl | hpr2
        · exact hgood2
        · exact ih cs2 hgood2 pr hpr2

theorem clusterLoop_chain_len {α : Type} [LinearOrder α] (d : ℕ → ℕ → α) (target : ℕ) :
    ∀ (fuel : ℕ) (cs : List (List ℕ)),
      List.Chain' (fun a b => a.length = b.length + 1)
        (cs :: (clusterLoop d target fuel cs).map Prod.fst) := by
  intro fuel
  induction fuel with
  | zero => intro cs; simp [clusterLoop]
  | succ fuel ih =>
    intro cs
    simp only [clusterLoop]
    split
    · simp
    · next hguard =>
      cases hm : mergeOnce d cs with
      | none => simp
      | some z =>
        obtain ⟨cs2, dist⟩ := z
        dsimp only
        simp only [List.map_cons]
        refine List.chain'_cons.2 ⟨?_, ih cs2⟩
        obtain ⟨i, j, hij, hj, hcs2, _, _⟩ := mergeOnce_some d cs _ _ hm
        subst hcs2
        rw [mergeAt_length cs i j hij hj]
        push_neg at hguard
        omega

theorem clusterLoop_head_dist {α : Type} [LinearOrder α] (d : ℕ → ℕ → α) (target fuel : ℕ)
    (cs c1 : List (List ℕ)) (rest : List (List (List ℕ) × α)) (d1 : α)
    (h : clusterLoop d target fuel cs = (c1, d1) :: rest) : d1 ∈ pairDists d cs := by
  cases fuel with
  | zero => simp [clusterLoop] at h
  | succ fuel =>
    simp only [clusterLoop] at h
    split at h
    · cases h
    · cases hm : mergeOnce d cs with
      | none => rw [hm] at h; cases h
      | some z =>
        obtain ⟨cs2, dist⟩ := z
        rw [hm] at h
        injection h with h1 h2
        injection h1 with ha hb
        obtain ⟨i, j, hij, hj, _, hdist, _⟩ := mergeOnce_some d cs _ _ hm
        rw [← hb, hdist]
        exact pairDists_idx_mem d cs i j hij hj

theorem clusterLoop_chain_dists {α : Type} [LinearOrder α] (d : ℕ → ℕ → α)
    (hsym : ∀ a b, d a b = d b a) (target : ℕ) :
    ∀ (fuel : ℕ) (cs : List (List ℕ)), (∀ c ∈ cs, c ≠ []) →
      List.Chain' (· ≤ ·) ((clusterLoop d target fuel cs).map Prod.snd) := by
  intro fuel
  induction fuel with
  | zero => intro cs _; simp [clusterLoop]
  | succ fuel ih =>
    intro cs hne
    simp only [clusterLoop]
    split
    · simp
    · cases hm : mergeOnce d cs with
      | none => simp
      | some z =>
        obtain ⟨cs2, dist⟩ := z
        dsimp only
        simp only [List.map_cons]
        have hne2 : ∀ c ∈ cs2, c ≠ [] := by
          obtain ⟨i, j, hij, hj, hcs2, _, _⟩ := mergeOnce_some d cs _ _ hm
          subst hcs2
          intro c hc
          rcases mergeAt_mem cs i j c hc with hc2 | hc2
          · exact hne c hc2
          · rw [hc2]
            intro hcnil
            exact hne _ (getD_mem _ _ _ (by omega : i < cs.length))
              (List.append_eq_nil.1 hcnil).1
        refine List.chain'_cons'.2 ⟨?_, ih cs2 hne2⟩
        intro y hy
        cases hloop : clusterLoop d target fuel cs2 with
        | nil => rw [hloop] at hy; simp at hy
        | cons pr rest =>
          obtain ⟨c1, d1⟩ := pr
          rw [hloop] at hy
          simp only [List.map_cons, List.head?_cons, Option.mem_def, Option.some.injEq] at hy
          subst hy
          exact mergeOnce_pairDists_lb d hsym cs cs2 dist hne hm d1
            (clusterLoop_head_dist d target fuel cs2 c1 rest d1 hloop)

theorem flatten_map_singleton : ∀ l : List ℕ, (l.map (fun i => [i])).flatten = l := by
  intro l
  induction l with
  | nil => rfl
  | cons x l ih => simp [ih]

theorem nodup_flatten_pairwise :
    ∀ lv : List (List ℕ), lv.flatten.Nodup →
      List.Pairwise (fun c c2 => ∀ x ∈ c, x ∉ c2) lv := by
  intro lv
  induction lv with
  | nil => intro _; exact List.Pairwise.nil
  | cons c lv ih =>
    intro hnd
    rw [List.flatten_cons, List.nodup_append] at hnd
    refine List.Pairwise.cons ?_ (ih hnd.2.1)
    intro c2 hc2 x hx hx2
    exact hnd.2.2 hx (List.mem_flatten.2 ⟨c2, hc2, hx2⟩)

/-- C4: for every run of the clustering stage (any symmetric point distance,
any record count, any target), every returned dendrogram level partitions the
full record index set — every index below `n` lies in exactly one cluster (the
clusters cover all indices, are pairwise disjoint, non-empty and
duplicate-free) — the cluster count decreases by exactly one between
consecutive levels, and the merge distances are non-decreasing as the cluster
count shrinks. -/
theorem clusterLevels_invariants {α : Type} [LinearOrder α] (d : ℕ → ℕ → α) (n target : ℕ)
    (hsym : ∀ a b, d a b = d b a) :
    (∀ lv ∈ (clusterLevels d n target).1,
      (∀ k, (∃ c ∈ lv, k ∈ c) ↔ k < n) ∧
      lv.flatten.Nodup ∧
      (∀ c ∈ lv, c ≠ []) ∧
      List.Pairwise (fun c c2 => ∀ x ∈ c, x ∉ c2) lv) ∧
    List.Chain' (fun a b => a.length = b.length + 1) (clusterLevels d n target).1 ∧
    List.Chain' (· ≤ ·) (clusterLevels d n target).2 := by
  have hinit : GoodPartition n ((List.range n).map (fun i => [i])) := by
    constructor
    · rw [flatten_map_singleton]
    · intro c hc
      obtain ⟨i, _, rfl⟩ := List.mem_map.1 hc
      simp
  refine ⟨?_, ?_, ?_⟩
  · intro lv hlv
    have hgood : GoodPartition n lv := by
      simp only [clusterLevels] at hlv
      rcases List.mem_cons.1 hlv with rfl | hlv2
      · exact hinit
      · obtain ⟨pr, hpr, rfl⟩ := List.mem_map.1 hlv2
        exact clusterLoop_good d target n _ _ hinit pr hpr
    have hnd : lv.flatten.Nodup := (hgood.1.nodup_iff).2 (List.nodup_range n)
    refine ⟨?_, hnd, hgood.2, nodup_flatten_pairwise lv hnd⟩
    intro k
    rw [show (∃ c ∈ lv, k ∈ c) ↔ k ∈ lv.flatten from (List.mem_flatten).symm]
    rw [hgood.1.mem_iff]
    exact List.mem_range
  · simp only [clusterLevels]
    exact clusterLoop_chain_len d target _ _
  · simp only [clusterLevels]
    refine clusterLoop_chain_dists d hsym target _ _ ?_
    exact hinit.2

/-- C4 witness at a concrete symmetric distance over three records with
target one. -/
theorem clusterLevels_invariants_witness :
    (∀ lv ∈ (clusterLevels (fun a b => ((a : ℚ) - b) ^ 2) 3 1).1,
      (∀ k, (∃ c ∈ lv, k ∈ c) ↔ k < 3) ∧
      lv.flatten.Nodup ∧
      (∀ c ∈ lv, c ≠ []) ∧
      List.Pairwise (fun c c2 => ∀ x ∈ c, x ∉ c2) lv) ∧
    List.Chain' (fun a b => a.length = b.length + 1)
      (clusterLevels (fun a b => ((a : ℚ) - b) ^ 2) 3 1).1 ∧
    List.Chain' (· ≤ ·) (clusterLevels (fun a b => ((a : ℚ) - b) ^ 2) 3 1).2 :=
  clusterLevels_invariants (fun a b => ((a : ℚ) - b) ^ 2) 3 1
    (fun a b => by ring)
